import Mathlib

/-!
Verification development for the incremental GitHub-statistics aggregation
engine in `main.py` (cache builder, commit-history reducer, retry logic,
archive merge).  The Python code is shallowly embedded: the ledger file is a
list of lines, each line a list of characters; the remote GraphQL API is
modelled as explicit finite streams of responses; `time.sleep` calls and
file writes are recorded in traces.  Python exceptions are modelled with
`Except`/`Option`.
-/

namespace Main

/-- A line of a text file, as Python sees it: a string, i.e. a list of
characters (including a trailing newline when present). -/
abbrev Line := List Char

/-- The whitespace characters recognised by Python's `str.split()` with no
separator argument (ASCII subset; the files involved are ASCII). -/
def isPySpace (c : Char) : Bool :=
  c = ' ' || c = '\n' || c = '\t' || c = '\r' || c = '\x0b' || c = '\x0c'

/-- Worker for `splitWS`: `acc` holds the reversed characters of the token
currently being read. -/
def splitWSAux : List Char → List Char → List Line
  | [], acc => if acc = [] then [] else [acc.reverse]
  | c :: rest, acc =>
    if isPySpace c then
      if acc = [] then splitWSAux rest []
      else acc.reverse :: splitWSAux rest []
    else splitWSAux rest (c :: acc)

/-- Model of Python `str.split()` with no argument: split on runs of
whitespace, discarding the whitespace and producing only nonempty tokens. -/
def splitWS (cs : List Char) : List Line := splitWSAux cs []

/-- Digit-printing worker, structurally recursive on a fuel bound so that
it evaluates inside the kernel. -/
def decReprAux : Nat → Nat → List Char
  | 0, _ => []
  | _ + 1, 0 => []
  | fuel + 1, m + 1 =>
    decReprAux fuel ((m + 1) / 10) ++ [Char.ofNat (48 + (m + 1) % 10)]

/-- Model of Python `str(n)` for a nonnegative integer: decimal digits,
most significant first, `"0"` for zero. -/
def decRepr (n : Nat) : List Char :=
  if n = 0 then ['0'] else decReprAux n n

/-- A decimal digit character. -/
def isDigitChar (c : Char) : Bool := 48 ≤ c.toNat && c.toNat ≤ 57

/-- Model of Python `int(s)` on a whitespace-free token: all characters must
be decimal digits (and there must be at least one); otherwise `int` raises
`ValueError`, modelled as `none`.  (Python also accepts signs and
surrounding whitespace; the tokens fed to `int` in this program come from
`str.split()` and from the program's own decimal output, so this
restriction is harmless.) -/
def decValue (cs : List Char) : Option Nat :=
  if cs ≠ [] ∧ cs.all isDigitChar then
    some (Nat.ofDigits 10 ((cs.map (fun c => c.toNat - 48)).reverse))
  else none

/-- One hexadecimal digit character (`0`-`9`, `a`-`f`). -/
def hexDigitChar (n : Nat) : Char :=
  if n < 10 then Char.ofNat (48 + n) else Char.ofNat (87 + n)

/-- Six hex digits encoding one code point. -/
def hex6 (n : Nat) : List Char :=
  [hexDigitChar (n / 1048576 % 16), hexDigitChar (n / 65536 % 16),
   hexDigitChar (n / 4096 % 16), hexDigitChar (n / 256 % 16),
   hexDigitChar (n / 16 % 16), hexDigitChar (n % 16)]

/-- Model of `hashlib.sha256(s.encode("utf-8")).hexdigest()`: an abstract
digest.  The code only ever compares digests for equality and embeds them as
whitespace-free tokens in ledger lines, so the model keeps exactly those
properties (a fixed-width hex encoding of the input; nonempty,
whitespace-free).  Collision freedom of real SHA-256 is an assumption of the
Python code; here the encoding is collision-free by construction. -/
def sha256_hexdigest (s : List Char) : List Char :=
  'h' :: (s.map (fun c => hex6 c.toNat)).flatten

/-! ### Token lemmas for `splitWS`, `decRepr`, `decValue` -/

theorem splitWS_space_cons {c : Char} (h : isPySpace c = true) (rest : List Char) :
    splitWS (c :: rest) = splitWS rest := by
  simp [splitWS, splitWSAux, h]

theorem splitWSAux_token {t : List Char} (hns : ∀ c ∈ t, isPySpace c = false) :
    ∀ (rest acc : List Char), splitWSAux (t ++ rest) acc = splitWSAux rest (t.reverse ++ acc) := by
  induction t with
  | nil => intro rest acc; simp
  | cons a t ih =>
    intro rest acc
    have ha : isPySpace a = false := hns a (by simp)
    rw [List.cons_append, splitWSAux.eq_def]
    simp only [ha, Bool.false_eq_true, if_false]
    rw [ih (fun c hc => hns c (by simp [hc])) rest (a :: acc)]
    simp

/-- Splitting a nonempty whitespace-free token followed by a whitespace
character yields that token and then the splitting of the remainder. -/
theorem splitWS_token_sep {t : List Char} (ht : t ≠ [])
    (hns : ∀ c ∈ t, isPySpace c = false) {s : Char} (hs : isPySpace s = true)
    (rest : List Char) : splitWS (t ++ s :: rest) = t :: splitWS rest := by
  show splitWSAux (t ++ s :: rest) [] = _
  rw [splitWSAux_token hns]
  rw [splitWSAux.eq_def]
  simp only [hs, if_true, List.append_nil, List.reverse_eq_nil_iff]
  rw [if_neg ht]
  simp [splitWS]

theorem splitWSAux_tokens_wf :
    ∀ (cs acc : List Char), (∀ c ∈ acc, isPySpace c = false) →
      ∀ t ∈ splitWSAux cs acc, t ≠ [] ∧ ∀ c ∈ t, isPySpace c = false := by
  intro cs
  induction cs with
  | nil =>
    intro acc hacc t ht
    rw [splitWSAux] at ht
    split at ht
    · simp at ht
    · simp only [List.mem_singleton] at ht
      subst ht
      refine ⟨by simpa using (by assumption : acc ≠ []), ?_⟩
      intro c hc; exact hacc c (List.mem_reverse.mp hc)
  | cons a rest ih =>
    intro acc hacc t ht
    rw [splitWSAux] at ht
    by_cases ha : isPySpace a = true
    · simp only [ha, if_true] at ht
      split at ht
      · exact ih [] (by simp) t ht
      · rcases List.mem_cons.mp ht with rfl | ht
        · refine ⟨by simpa using (by assumption : acc ≠ []), ?_⟩
          intro c hc; exact hacc c (List.mem_reverse.mp hc)
        · exact ih [] (by simp) t ht
    · simp only [ha, if_false] at ht
      refine ih (a :: acc) ?_ t ht
      intro c hc
      rcases List.mem_cons.mp hc with rfl | hc
      · simpa using ha
      · exact hacc c hc

/-- Every token produced by `splitWS` is nonempty and whitespace-free. -/
theorem splitWS_tokens_wf (cs : List Char) :
    ∀ t ∈ splitWS cs, t ≠ [] ∧ ∀ c ∈ t, isPySpace c = false :=
  splitWSAux_tokens_wf cs [] (by simp)

theorem decReprAux_eq_digits (fuel : Nat) :
    ∀ n, n ≤ fuel →
      decReprAux fuel n =
        ((Nat.digits 10 n).map (fun d => Char.ofNat (48 + d))).reverse := by
  induction fuel with
  | zero =>
    intro n hn
    interval_cases n
    simp [decReprAux]
  | succ fuel ih =>
    intro n hn
    match n with
    | 0 => simp [decReprAux]
    | m + 1 =>
      rw [decReprAux]
      have hdiv : (m + 1) / 10 ≤ fuel := by
        have h2 : (m + 1) / 10 < m + 1 := Nat.div_lt_self (by omega) (by norm_num)
        omega
      rw [ih _ hdiv]
      rw [Nat.digits_def' (by norm_num : (1 : Nat) < 10) (by omega : 0 < m + 1)]
      simp

/-- For nonzero `n`, `decRepr` agrees with the `Nat.digits` formula. -/
theorem decRepr_eq_digits {n : Nat} (hn : n ≠ 0) :
    decRepr n = ((Nat.digits 10 n).map (fun d => Char.ofNat (48 + d))).reverse := by
  unfold decRepr
  rw [if_neg hn]
  exact decReprAux_eq_digits n n (le_refl n)

theorem decRepr_ne_nil (n : Nat) : decRepr n ≠ [] := by
  by_cases h0 : n = 0
  · subst h0; decide
  · rw [decRepr_eq_digits h0]
    simp only [ne_eq, List.reverse_eq_nil_iff, List.map_eq_nil_iff]
    exact Nat.digits_ne_nil_iff_ne_zero.mpr h0

theorem decRepr_digits (n : Nat) : ∀ c ∈ decRepr n, isDigitChar c = true := by
  by_cases h0 : n = 0
  · subst h0
    intro c hc
    rw [show decRepr 0 = ['0'] from rfl] at hc
    simp only [List.mem_singleton] at hc
    subst hc
    decide
  · rw [decRepr_eq_digits h0]
    intro c hc
    simp only [List.mem_reverse, List.mem_map] at hc
    obtain ⟨d, hd, rfl⟩ := hc
    have hd10 : d < 10 := Nat.digits_lt_base (by norm_num) hd
    interval_cases d <;> decide

theorem digitChar_not_space {c : Char} (h : isDigitChar c = true) :
    isPySpace c = false := by
  simp only [isDigitChar, Bool.and_eq_true, decide_eq_true_eq] at h
  simp only [isPySpace, Bool.or_eq_false_iff, decide_eq_false_iff_not]
  refine ⟨⟨⟨⟨⟨?_, ?_⟩, ?_⟩, ?_⟩, ?_⟩, ?_⟩ <;> rintro rfl <;> revert h <;> decide

theorem decRepr_not_space (n : Nat) : ∀ c ∈ decRepr n, isPySpace c = false :=
  fun c hc => digitChar_not_space (decRepr_digits n c hc)

theorem decValue_decRepr (n : Nat) : decValue (decRepr n) = some n := by
  by_cases h0 : n = 0
  · subst h0; decide
  · have hne : decRepr n ≠ [] := decRepr_ne_nil n
    have hall : (decRepr n).all isDigitChar := by
      rw [List.all_eq_true]; exact decRepr_digits n
    unfold decValue
    rw [if_pos ⟨hne, hall⟩]
    rw [decRepr_eq_digits h0]
    rw [List.map_reverse, List.reverse_reverse, List.map_map]
    have hmap : ((Nat.digits 10 n).map
        ((fun c : Char => c.toNat - 48) ∘ fun d => Char.ofNat (48 + d))) =
        (Nat.digits 10 n).map id := by
      apply List.map_congr_left
      intro d hd
      have hd10 : d < 10 := Nat.digits_lt_base (by norm_num) hd
      simp only [Function.comp_apply, id]
      interval_cases d <;> decide
    rw [hmap, List.map_id, Nat.ofDigits_digits]

theorem sha256_ne_nil (s : List Char) : sha256_hexdigest s ≠ [] := by
  simp [sha256_hexdigest]

theorem hexDigitChar_mod_not_space (x : Nat) :
    isPySpace (hexDigitChar (x % 16)) = false := by
  have h : x % 16 < 16 := Nat.mod_lt _ (by norm_num)
  have hgen : ∀ m < 16, isPySpace (hexDigitChar m) = false := by decide
  exact hgen _ h

theorem sha256_not_space (s : List Char) :
    ∀ c ∈ sha256_hexdigest s, isPySpace c = false := by
  intro c hc
  simp only [sha256_hexdigest, List.mem_cons] at hc
  rcases hc with rfl | hc
  · decide
  · rw [List.mem_flatten] at hc
    obtain ⟨l, hl, hcl⟩ := hc
    rw [List.mem_map] at hl
    obtain ⟨a, _, rfl⟩ := hl
    simp only [hex6, List.mem_cons] at hcl
    rcases hcl with rfl | rfl | rfl | rfl | rfl | rfl | h
    · exact hexDigitChar_mod_not_space _
    · exact hexDigitChar_mod_not_space _
    · exact hexDigitChar_mod_not_space _
    · exact hexDigitChar_mod_not_space _
    · exact hexDigitChar_mod_not_space _
    · exact hexDigitChar_mod_not_space _
    · simp at h

/-! ### Ledger line shapes -/

/-- The literal `" 0 0 0 0\n"` appended after a key hash when the code
writes a zeroed ledger line. -/
def zeroSuffix : List Char := [' ', '0', ' ', '0', ' ', '0', ' ', '0', '\n']

/-- A freshly refreshed ledger line, as built at `main.py:454-469`:
`repo_hash + " " + str(total) + " " + str(my_commits) + " " + str(additions)
+ " " + str(deletions) + "\n"`. -/
def mkLine (h : Line) (total my_commits additions deletions : Nat) : Line :=
  h ++ ' ' :: (decRepr total ++ ' ' :: (decRepr my_commits ++ ' ' ::
    (decRepr additions ++ ' ' :: (decRepr deletions ++ ['\n']))))

theorem splitWS_zeroSuffix {h : Line} (hne : h ≠ [])
    (hns : ∀ c ∈ h, isPySpace c = false) :
    splitWS (h ++ zeroSuffix) = [h, ['0'], ['0'], ['0'], ['0']] := by
  show splitWS (h ++ ' ' :: ['0', ' ', '0', ' ', '0', ' ', '0', '\n']) = _
  rw [splitWS_token_sep hne hns (by decide)]
  have hz : splitWS ['0', ' ', '0', ' ', '0', ' ', '0', '\n'] =
      [['0'], ['0'], ['0'], ['0']] := by decide
  rw [hz]

theorem splitWS_mkLine {h : Line} (hne : h ≠ [])
    (hns : ∀ c ∈ h, isPySpace c = false) (t m a d : Nat) :
    splitWS (mkLine h t m a d) = [h, decRepr t, decRepr m, decRepr a, decRepr d] := by
  unfold mkLine
  rw [splitWS_token_sep hne hns (by decide),
    splitWS_token_sep (decRepr_ne_nil t) (decRepr_not_space t) (by decide),
    splitWS_token_sep (decRepr_ne_nil m) (decRepr_not_space m) (by decide),
    splitWS_token_sep (decRepr_ne_nil a) (decRepr_not_space a) (by decide)]
  have hd : decRepr d ++ ['\n'] = decRepr d ++ '\n' :: [] := rfl
  rw [hd, splitWS_token_sep (decRepr_ne_nil d) (decRepr_not_space d) (by decide)]
  rfl

/-! ### Constants (`main.py:39-45`) -/

def MAX_RETRIES : Nat := 3
def RETRY_DELAY_BASE : Nat := 2
def TRANSIENT_ERROR_CODES : List Nat := [502, 503, 504]
def MAX_COMMITS_PER_REPO : Nat := 5000

/-! ### The commit-history reducer (`recursive_loc` / `loc_counter_one_repo`) -/

/-- One commit edge of a history page: whether `node.author.user` equals the
global `OWNER_ID`, plus its additions and deletions. -/
structure Commit where
  authorIsOwner : Bool
  additions : Nat
  deletions : Nat
deriving DecidableEq

structure PageInfo where
  endCursor : Option Line
  hasNextPage : Bool
deriving DecidableEq

/-- The `history` object of one 200-response page (the query also requests
`totalCount`, but `loc_counter_one_repo` never reads it, so it is omitted). -/
structure History where
  edges : List Commit
  pageInfo : PageInfo
deriving DecidableEq

/-- The outcome of one HTTP POST made by `recursive_loc`.  `ok none` is a
200 response whose `defaultBranchRef` is `null` (empty repository). -/
inductive LocResponse where
  | ok (defaultBranchRef : Option History)
  | httpError (status : Nat)
deriving DecidableEq

/-- What a whole `recursive_loc` call tree produces: the empty-repo `0`
return, a `(additions, deletions, my_commits)` tuple, a raised exception
carrying the failing status (flushing is handled by the caller's model), or
exhaustion of the modelled finite response stream. -/
inductive LocResult where
  | emptyRepo
  | counts (additions deletions my_commits : Nat)
  | failed (status : Nat)
  | starved
deriving DecidableEq

/-- Result of a reduction run plus its observable trace: the argument of
each `time.sleep` in order, and the number of history pages processed. -/
structure LocOutcome where
  result : LocResult
  sleeps : List Nat
  pages : Nat
deriving DecidableEq

/-- The authorship filter fold of `loc_counter_one_repo` (`main.py:306-310`):
for each commit authored by the owner, add its additions and deletions and
count it. -/
def pageFold : List Commit → Nat × Nat × Nat → Nat × Nat × Nat
  | [], acc => acc
  | c :: cs, (a, d, m) =>
    if c.authorIsOwner then pageFold cs (a + c.additions, d + c.deletions, m + 1)
    else pageFold cs (a, d, m)

/-- Whether one page ends the reduction, and with what state
(`main.py:304-332`).  `commits_fetched` grows by the page size before any
check; the stop checks run after the fold: first zero-commits/no-next-page,
then the `MAX_COMMITS_PER_REPO` ceiling. -/
inductive LocStep where
  | done (additions deletions my_commits : Nat)
  | next (additions deletions my_commits : Nat) (cursor : Option Line) (fetched : Nat)
deriving DecidableEq

def loc_counter_one_repo (history : History) (addition_total deletion_total
    my_commits commits_fetched : Nat) : LocStep :=
  let fetched := commits_fetched + history.edges.length
  let acc := pageFold history.edges (addition_total, deletion_total, my_commits)
  if history.edges = [] ∨ history.pageInfo.hasNextPage = false then
    .done acc.1 acc.2.1 acc.2.2
  else if MAX_COMMITS_PER_REPO ≤ fetched then
    .done acc.1 acc.2.1 acc.2.2
  else
    .next acc.1 acc.2.1 acc.2.2 history.pageInfo.endCursor fetched

/-- `recursive_loc` (`main.py:172-286`), one modelled response consumed per
POST.  On a transient status (502/503/504) with retries left it sleeps
`RETRY_DELAY_BASE * 2 ^ retry_count` and retries with the same cursor and
accumulators — but, as in the source, the recursive call at
`main.py:258-268` omits `commits_fetched`, so the ceiling counter restarts
at its default `0`.  On a successful page, `loc_counter_one_repo` either
finishes or continues with `retry_count` back at its default `0`. -/
def recursive_loc : List LocResponse → Nat → Nat → Nat → Option Line → Nat →
    Nat → List Nat → Nat → LocOutcome
  | [], _, _, _, _, _, _, sleeps, pages => ⟨.starved, sleeps, pages⟩
  | .ok none :: _, _, _, _, _, _, _, sleeps, pages => ⟨.emptyRepo, sleeps, pages⟩
  | .ok (some history) :: rest, addition_total, deletion_total, my_commits, _,
      _, commits_fetched, sleeps, pages =>
    match loc_counter_one_repo history addition_total deletion_total my_commits
        commits_fetched with
    | .done a d m => ⟨.counts a d m, sleeps, pages + 1⟩
    | .next a d m cursor fetched =>
        recursive_loc rest a d m cursor 0 fetched sleeps (pages + 1)
  | .httpError status :: rest, addition_total, deletion_total, my_commits,
      cursor, retry_count, _, sleeps, pages =>
    if status ∈ TRANSIENT_ERROR_CODES ∧ retry_count < MAX_RETRIES then
      recursive_loc rest addition_total deletion_total my_commits cursor
        (retry_count + 1) 0 (sleeps ++ [RETRY_DELAY_BASE * 2 ^ retry_count]) pages
    else ⟨.failed status, sleeps, pages⟩

/-! ### The repository cache (`cache_builder` / `flush_cache`) -/

/-- One entry of the repository enumeration built by `loc_query`:
`nameWithOwner` plus the default branch's history `totalCount`
(`none` when `defaultBranchRef` is `null`). -/
structure Edge where
  nameWithOwner : Line
  defaultBranchRef : Option Nat
deriving DecidableEq

/-- Model of Python `name.split("/")`. -/
def splitOnSlash : List Char → List Line
  | [] => [[]]
  | c :: rest =>
    let r := splitOnSlash rest
    if c = '/' then [] :: r
    else match r with
      | t :: ts => (c :: t) :: ts
      | [] => [[c]]

/-- `owner, repo_name = nameWithOwner.split("/")` (`main.py:451`): the
unpacking raises `ValueError` unless there are exactly two parts. -/
def splitOwner (name : Line) : Option (Line × Line) :=
  match splitOnSlash name with
  | [o, r] => some (o, r)
  | _ => none

/-- The placeholder comment line written when the cache file is first
created (`main.py:418-419`). -/
def commentLine : Line :=
  "This line is a comment block. Write whatever you want here.\n".data

/-- `flush_cache` (`main.py:487-504`): keep the first `comment_size` lines of
the current file, then one zeroed line per enumerated repository, keyed by
the identity hash, in enumeration order. -/
def flush_cache (edges : List Edge) (fileData : List Line) (comment_size : Nat) :
    List Line :=
  (if 0 < comment_size then fileData.take comment_size else []) ++
    edges.map (fun e => sha256_hexdigest e.nameWithOwner ++ zeroSuffix)

/-- `force_close_file` (`main.py:538-549`): the file contents written when a
reduction fails: the comment block followed by the current data lines. -/
def force_close_file (data cache_comment : List Line) : List Line :=
  cache_comment ++ data

/-- Per-line outcome of the reconciliation loop: the final line, whether
`data[index]` was assigned this run, and whether `recursive_loc` was invoked
for this index. -/
structure LineOut where
  line : Line
  written : Bool
  reduced : Bool
deriving DecidableEq

/-- Failure of the reconciliation loop: an uncaught Python error
(`ValueError`/`IndexError`), stream exhaustion (model artifact), or a
reducer failure carrying the lines processed so far and the untouched
remainder. -/
inductive LoopErr where
  | pyError
  | starved
  | reduceFail (status : Nat) (done : List Line) (rest : List Line)
deriving DecidableEq

/-- Prefix one processed line onto a loop continuation, also extending the
partially-updated snapshot recorded by a later reducer failure. -/
def consLine (out : LineOut) : Except LoopErr (List LineOut) →
    Except LoopErr (List LineOut)
  | .ok outs => .ok (out :: outs)
  | .error (.reduceFail st done rest) => .error (.reduceFail st (out.line :: done) rest)
  | .error e => .error e

/-- What processing one index of the `cache_builder` loop does to its
line. -/
inductive StepRes where
  | write (out : LineOut)
  | fail (status : Nat)
  | pyErr
  | starve
deriving DecidableEq

/-- One index of the `cache_builder` loop (`main.py:436-472`): parse the
stored line; if the stored key hash equals the identity hash, parse the
stored commit count (`ValueError` is uncaught) and compare it with the
remote total — a `null` default branch raises `TypeError`, caught by
zeroing the line; on a differing count, run the reducer and overwrite the
line with the refreshed values (an empty-repo `0` return from the reducer
also raises `TypeError` at `loc[2]`, caught by zeroing the line).  A
mismatching hash leaves the line untouched. -/
def reconcile_step (resp : Line → List LocResponse) (e : Edge) (d : Line) : StepRes :=
  match splitWS d with
  | repo_hash :: commit_count :: _ =>
    if repo_hash = sha256_hexdigest e.nameWithOwner then
      match decValue commit_count with
      | none => .pyErr
      | some n =>
        match e.defaultBranchRef with
        | none => .write ⟨repo_hash ++ zeroSuffix, true, false⟩
        | some tc =>
          if n ≠ tc then
            match splitOwner e.nameWithOwner with
            | none => .pyErr
            | some _ =>
              match (recursive_loc (resp e.nameWithOwner) 0 0 0 none 0 0 [] 0).result with
              | .starved => .starve
              | .failed st => .fail st
              | .emptyRepo => .write ⟨repo_hash ++ zeroSuffix, true, true⟩
              | .counts la ld lm => .write ⟨mkLine repo_hash tc lm la ld, true, true⟩
          else .write ⟨d, false, false⟩
    else .write ⟨d, false, false⟩
  | _ => .pyErr

/-- The per-index loop of `cache_builder` (`main.py:435-472`), one
`reconcile_step` per enumerated repository in order.  A reducer failure
aborts the loop, recording the lines updated so far and the untouched
remainder (the current line keeps its prior value: the assignment at
`main.py:454` happens only after `recursive_loc` returns). -/
def reconcile_loop (resp : Line → List LocResponse) :
    List Edge → List Line → Except LoopErr (List LineOut)
  | [], ds => .ok (ds.map fun d => ⟨d, false, false⟩)
  | _ :: _, [] => .error .pyError
  | e :: es, d :: ds =>
    match reconcile_step resp e d with
    | .write out => consLine out (reconcile_loop resp es ds)
    | .fail st => .error (.reduceFail st [] (d :: ds))
    | .pyErr => .error .pyError
    | .starve => .error .starved

/-- The summing pass of `cache_builder` (`main.py:477-480`): fold additions
(5th token is deletions, 4th additions) over all data lines; a short or
non-numeric line raises. -/
def sumLines : List Line → Option (Nat × Nat)
  | [] => some (0, 0)
  | l :: ls =>
    match splitWS l with
    | _ :: _ :: _ :: a :: d :: _ =>
      match decValue a, decValue d, sumLines ls with
      | some av, some dv, some (ra, rd) => some (av + ra, dv + rd)
      | _, _, _ => none
    | _ => none

/-- An uncaught exception escaping `cache_builder`. -/
inductive RunError where
  | pythonError
  | outOfResponses
  | enumFailed (status : Nat)
  | reducerFailed (status : Nat) (flushed : List Line)
deriving DecidableEq

/-- The `[loc_add, loc_del, loc_add - loc_del, cached]` return value of
`cache_builder`, together with the comment block and the final data lines
(with per-line trace flags) whose concatenation is the persisted file. -/
structure CacheOutcome where
  loc_add : Nat
  loc_del : Nat
  net : Int
  cached : Bool
  comment : List Line
  lines : List LineOut
deriving DecidableEq

instance {ε α : Type} [DecidableEq ε] [DecidableEq α] : DecidableEq (Except ε α)
  | .ok x, .ok y =>
    if h : x = y then .isTrue (by rw [h]) else .isFalse (by simp [h])
  | .error x, .error y =>
    if h : x = y then .isTrue (by rw [h]) else .isFalse (by simp [h])
  | .ok _, .error _ => .isFalse (fun hc => Except.noConfusion hc)
  | .error _, .ok _ => .isFalse (fun hc => Except.noConfusion hc)

/-- A whole `cache_builder` run: the file contents written by `flush_cache`
if a rebuild was triggered, and the result or the escaping exception. -/
structure CacheRun where
  rebuiltTo : Option (List Line)
  result : Except RunError CacheOutcome
deriving DecidableEq

/-- The file contents `cache_builder` sees after the open-or-create step
(`main.py:409-422`): the existing file, or `comment_size` placeholder
lines. -/
def cb_data0 (comment_size : Nat) (file0 : Option (List Line)) : List Line :=
  match file0 with
  | some ls => ls
  | none => List.replicate comment_size commentLine

/-- The rebuild trigger (`main.py:424-426`):
`len(data) - comment_size != len(edges) or force_cache`. -/
def rebuildCond (edges : List Edge) (comment_size : Nat) (force_cache : Bool)
    (file0 : Option (List Line)) : Bool :=
  (((cb_data0 comment_size file0).length : Int) - (comment_size : Int)
      != (edges.length : Int)) || force_cache

/-- The file contents when the reconciliation loop starts: rebuilt by
`flush_cache` when triggered, otherwise as loaded. -/
def cb_data1 (edges : List Edge) (comment_size : Nat) (force_cache : Bool)
    (file0 : Option (List Line)) : List Line :=
  if rebuildCond edges comment_size force_cache file0 then
    flush_cache edges (cb_data0 comment_size file0) comment_size
  else cb_data0 comment_size file0

/-- The comment block sliced off at `main.py:433`. -/
def cb_comment (edges : List Edge) (comment_size : Nat) (force_cache : Bool)
    (file0 : Option (List Line)) : List Line :=
  (cb_data1 edges comment_size force_cache file0).take comment_size

/-- The data lines the reconciliation loop starts from (`main.py:434`). -/
def cb_lines0 (edges : List Edge) (comment_size : Nat) (force_cache : Bool)
    (file0 : Option (List Line)) : List Line :=
  (cb_data1 edges comment_size force_cache file0).drop comment_size

/-- `cache_builder` (`main.py:399-484`).  `file0` is the cache file's
contents (`none`: absent, it gets created); `resp` gives, per
`nameWithOwner`, the response stream the reducer would consume.  `cached`
starts `True` and is cleared only by the rebuild branch. -/
def cache_builder (edges : List Edge) (comment_size : Nat) (force_cache : Bool)
    (file0 : Option (List Line)) (resp : Line → List LocResponse) : CacheRun :=
  let rebuilt := rebuildCond edges comment_size force_cache file0
  let data1 := cb_data1 edges comment_size force_cache file0
  let cache_comment := cb_comment edges comment_size force_cache file0
  let dataLines := cb_lines0 edges comment_size force_cache file0
  let rebuiltTo := if rebuilt then some data1 else none
  match reconcile_loop resp edges dataLines with
  | .error .pyError => ⟨rebuiltTo, .error .pythonError⟩
  | .error .starved => ⟨rebuiltTo, .error .outOfResponses⟩
  | .error (.reduceFail st done rest) =>
      ⟨rebuiltTo, .error (.reducerFailed st (force_close_file (done ++ rest) cache_comment))⟩
  | .ok outs =>
      match sumLines (outs.map (·.line)) with
      | none => ⟨rebuiltTo, .error .pythonError⟩
      | some (la, ld) =>
          ⟨rebuiltTo, .ok ⟨la, ld, (la : Int) - (ld : Int), !rebuilt, cache_comment, outs⟩⟩

/-- The file persisted by a successful `cache_builder` run
(`main.py:473-475`): comment block then data lines. -/
def persistedFile (o : CacheOutcome) : List Line :=
  o.comment ++ o.lines.map (·.line)

/-! ### Repository enumeration (`simple_request` / `loc_query`) -/

/-- `simple_request` (`main.py:77-95`): return the payload on a 200 status,
otherwise raise immediately — there is no retry around it. -/
def simple_request {α : Type} (status : Nat) (payload : α) : Except Nat α :=
  if status = 200 then .ok payload else .error status

/-- One enumeration response: HTTP status plus (when 200) the page. -/
structure EnumPage where
  edges : List Edge
  hasNextPage : Bool
deriving DecidableEq

structure EnumResponse where
  status : Nat
  page : EnumPage
deriving DecidableEq

/-- `loc_query` (`main.py:335-396`): page through the repository
enumeration via `simple_request`, accumulating edges, then hand the full
set to `cache_builder`.  Also returns how many enumeration responses were
consumed. -/
def loc_query (responses : List EnumResponse) (comment_size : Nat)
    (force_cache : Bool) (file0 : Option (List Line))
    (resp : Line → List LocResponse) (edges : List Edge) : CacheRun × Nat :=
  match responses with
  | [] => (⟨none, .error .outOfResponses⟩, 0)
  | r :: rest =>
    match simple_request r.status r.page with
    | .error st => (⟨none, .error (.enumFailed st)⟩, 1)
    | .ok page =>
      if page.hasNextPage then
        let next := loc_query rest comment_size force_cache file0 resp
          (edges ++ page.edges)
        (next.1, next.2 + 1)
      else (cache_builder (edges ++ page.edges) comment_size force_cache file0 resp, 1)

/-! ### The archive merge (`add_archive` and `__main__:806-811`) -/

/-- The `[added_loc, deleted_loc, net, my_commits, contributed_repos]`
return of `add_archive`.  `my_commits` is the string
`old_data[-1].split()[4][:-1]` on success (`some tok`); on the exception
path it is the integer `0` (`none`). -/
structure ArchiveData where
  added_loc : Nat
  deleted_loc : Nat
  net : Int
  my_commits : Option Line
  contributed : Nat
deriving DecidableEq

def archiveFallback : ArchiveData := ⟨0, 0, 0, none, 0⟩

/-- The additions/deletions fold over archive data lines (`main.py:520-523`):
each line must split into at least five tokens with numeric 4th and 5th. -/
def sumArchive : List Line → Option (Nat × Nat)
  | [] => some (0, 0)
  | l :: ls =>
    match splitWS l with
    | _ :: _ :: _ :: a :: d :: _ =>
      match decValue a, decValue d, sumArchive ls with
      | some av, some dv, some (ra, rd) => some (av + ra, dv + rd)
      | _, _, _ => none
    | _ => none

/-- The body of `add_archive`'s `try` block (`main.py:513-532`): strip the
7-line header and 3-line footer, sum the data lines, and take the final
line's 5th whitespace token with its last character dropped. -/
def add_archive_core (old_data : List Line) : Option ArchiveData :=
  let data := (old_data.drop 7).take (old_data.length - 3 - 7)
  match sumArchive data, old_data.getLast? with
  | some (added, deleted), some last =>
    match (splitWS last).get? 4 with
    | some tok => some ⟨added, deleted, (added : Int) - (deleted : Int),
        some tok.dropLast, data.length⟩
    | none => none
  | _, _ => none

/-- `add_archive` (`main.py:507-535`): a missing file or any exception in
the body yields all zeros. -/
def add_archive (file : Option (List Line)) : ArchiveData :=
  match file with
  | none => archiveFallback
  | some old_data =>
    match add_archive_core old_data with
    | some r => r
    | none => archiveFallback

/-- The live totals the `__main__` block holds just before the archive
merge. -/
structure Totals where
  loc_add : Nat
  loc_del : Nat
  net : Int
  commit_data : Nat
  contrib_data : Nat
  star_data : Nat
  repo_data : Nat
  follower_data : Nat
deriving DecidableEq

/-- The primary-account archive merge (`main.py:806-811`): add the archive's
additions, deletions and net to `total_loc[0..2]`, its repository count to
`contrib_data`, and `int(my_commits)` to `commit_data`; `int` of a
non-numeric string raises (`none`). -/
def merge_archive (t : Totals) (a : ArchiveData) : Option Totals :=
  match (match a.my_commits with
         | none => some 0
         | some tok => decValue tok) with
  | none => none
  | some mc =>
    some { t with
      loc_add := t.loc_add + a.added_loc
      loc_del := t.loc_del + a.deleted_loc
      net := t.net + a.net
      contrib_data := t.contrib_data + a.contributed
      commit_data := t.commit_data + mc }

/-! ## Reducer lemmas -/

theorem pageFold_my_commits_le (cs : List Commit) :
    ∀ a d m, (pageFold cs (a, d, m)).2.2 ≤ m + cs.length := by
  induction cs with
  | nil => intro a d m; simp [pageFold]
  | cons c cs ih =>
    intro a d m
    rw [pageFold]
    by_cases hc : c.authorIsOwner
    · simp only [hc, if_true]
      have := ih (a + c.additions) (d + c.deletions) (m + 1)
      simp only [List.length_cons]
      omega
    · simp only [hc, Bool.false_eq_true, if_false]
      have := ih a d m
      simp only [List.length_cons]
      omega

/-- A full history page: 100 owner-authored commits of one addition and one
deletion each, with a further page indicated. -/
def fullPage : History := ⟨List.replicate 100 ⟨true, 1, 1⟩, ⟨some ['c'], true⟩⟩

theorem pageFold_replicate (n : Nat) :
    ∀ a d m, pageFold (List.replicate n ⟨true, 1, 1⟩) (a, d, m) =
      (a + n, d + n, m + n) := by
  induction n with
  | zero => intro a d m; simp [pageFold]
  | succ n ih =>
    intro a d m
    rw [List.replicate_succ, pageFold]
    simp only [if_true]
    rw [ih]
    simp only [Prod.mk.injEq]
    omega

theorem loc_counter_fullPage (a d m f : Nat) :
    loc_counter_one_repo fullPage a d m f =
      if MAX_COMMITS_PER_REPO ≤ f + 100 then .done (a + 100) (d + 100) (m + 100)
      else .next (a + 100) (d + 100) (m + 100) (some ['c']) (f + 100) := by
  simp only [loc_counter_one_repo, fullPage, pageFold_replicate,
    List.length_replicate]
  rw [if_neg (by simp)]

/-- Unfolding equation of `recursive_loc` on a successful nonempty page. -/
theorem recursive_loc_ok_some (h : History) (rest : List LocResponse)
    (a d m : Nat) (cur : Option Line) (rc f : Nat) (sl : List Nat) (pg : Nat) :
    recursive_loc (.ok (some h) :: rest) a d m cur rc f sl pg =
      match loc_counter_one_repo h a d m f with
      | .done a' d' m' => ⟨.counts a' d' m', sl, pg + 1⟩
      | .next a' d' m' cursor fetched =>
          recursive_loc rest a' d' m' cursor 0 fetched sl (pg + 1) := rfl

theorem recursive_loc_page_done {h : History} {a d m f a' d' m' : Nat}
    (hstep : loc_counter_one_repo h a d m f = .done a' d' m')
    (rest : List LocResponse) (cur : Option Line) (rc : Nat) (sl : List Nat)
    (pg : Nat) :
    recursive_loc (.ok (some h) :: rest) a d m cur rc f sl pg =
      ⟨.counts a' d' m', sl, pg + 1⟩ := by
  rw [recursive_loc_ok_some, hstep]

theorem recursive_loc_page_next {h : History} {a d m f a' d' m' f' : Nat}
    {cur' : Option Line}
    (hstep : loc_counter_one_repo h a d m f = .next a' d' m' cur' f')
    (rest : List LocResponse) (cur : Option Line) (rc : Nat) (sl : List Nat)
    (pg : Nat) :
    recursive_loc (.ok (some h) :: rest) a d m cur rc f sl pg =
      recursive_loc rest a' d' m' cur' 0 f' sl (pg + 1) := by
  rw [recursive_loc_ok_some, hstep]

/-- A transient-status response with retries left: sleep
`RETRY_DELAY_BASE * 2 ^ retry_count` and retry with the same cursor and
accumulators, `commits_fetched` restarting at the omitted default `0`. -/
theorem recursive_loc_transient_step {s : Nat} (hs : s ∈ TRANSIENT_ERROR_CODES)
    {rc : Nat} (hrc : rc < MAX_RETRIES) (rest : List LocResponse)
    (a d m : Nat) (cur : Option Line) (f : Nat) (sl : List Nat) (pg : Nat) :
    recursive_loc (.httpError s :: rest) a d m cur rc f sl pg =
      recursive_loc rest a d m cur (rc + 1) 0
        (sl ++ [RETRY_DELAY_BASE * 2 ^ rc]) pg := by
  rw [recursive_loc]
  rw [if_pos ⟨hs, hrc⟩]

/-- A page satisfying a stop condition (zero commits, or no next page) ends
the reduction at once, whatever follows in the stream. -/
theorem recursive_loc_stop_page {h : History}
    (hstop : h.edges = [] ∨ h.pageInfo.hasNextPage = false)
    (rest : List LocResponse) (a d m : Nat) (cur : Option Line) (rc f : Nat)
    (sl : List Nat) (pg : Nat) :
    recursive_loc (.ok (some h) :: rest) a d m cur rc f sl pg =
      ⟨.counts (pageFold h.edges (a, d, m)).1 (pageFold h.edges (a, d, m)).2.1
        (pageFold h.edges (a, d, m)).2.2, sl, pg + 1⟩ := by
  rw [recursive_loc]
  have hstep : loc_counter_one_repo h a d m f =
      .done (pageFold h.edges (a, d, m)).1 (pageFold h.edges (a, d, m)).2.1
        (pageFold h.edges (a, d, m)).2.2 := by
    simp only [loc_counter_one_repo]
    rw [if_pos hstop]
  rw [hstep]

/-- A nonempty page with a next page indicated, whose size pushes the
cumulative `commits_fetched` to the ceiling, also ends the reduction at
once. -/
theorem recursive_loc_ceiling_page {h : History} (hne : h.edges ≠ [])
    (hnext : h.pageInfo.hasNextPage = true)
    (rest : List LocResponse) (a d m : Nat) (cur : Option Line) (rc : Nat)
    {f : Nat} (hceil : MAX_COMMITS_PER_REPO ≤ f + h.edges.length)
    (sl : List Nat) (pg : Nat) :
    recursive_loc (.ok (some h) :: rest) a d m cur rc f sl pg =
      ⟨.counts (pageFold h.edges (a, d, m)).1 (pageFold h.edges (a, d, m)).2.1
        (pageFold h.edges (a, d, m)).2.2, sl, pg + 1⟩ := by
  rw [recursive_loc]
  have hstep : loc_counter_one_repo h a d m f =
      .done (pageFold h.edges (a, d, m)).1 (pageFold h.edges (a, d, m)).2.1
        (pageFold h.edges (a, d, m)).2.2 := by
    simp only [loc_counter_one_repo]
    rw [if_neg (by simp [hne, hnext]), if_pos hceil]
  rw [hstep]

/-- Full pages up to the commit ceiling: starting from `f` fetched commits,
`j` consecutive full pages reach the ceiling and stop exactly at page `j`,
having accumulated `100 * j` authored commits. -/
theorem recursive_loc_full_ceiling :
    ∀ (j : Nat), 1 ≤ j →
    ∀ (rest : List LocResponse) (a d m : Nat) (cur : Option Line) (rc f : Nat)
      (sl : List Nat) (pg : Nat),
      f + 100 * (j - 1) < MAX_COMMITS_PER_REPO →
      MAX_COMMITS_PER_REPO ≤ f + 100 * j →
      recursive_loc (List.replicate j (.ok (some fullPage)) ++ rest) a d m cur rc f sl pg =
        ⟨.counts (a + 100 * j) (d + 100 * j) (m + 100 * j), sl, pg + j⟩ := by
  intro j
  induction j with
  | zero => omega
  | succ j ih =>
    intro _ rest a d m cur rc f sl pg hlt hge
    have hlt' : f + 100 * j < MAX_COMMITS_PER_REPO := by
      have h1 : j + 1 - 1 = j := by omega
      rwa [h1] at hlt
    clear hlt
    rw [List.replicate_succ, List.cons_append]
    by_cases hj : j = 0
    · subst hj
      have hc : MAX_COMMITS_PER_REPO ≤ f + 100 := by
        simpa using hge
      rw [recursive_loc_page_done (by rw [loc_counter_fullPage, if_pos hc])]
    · have hc : ¬ MAX_COMMITS_PER_REPO ≤ f + 100 := by
        have : 100 ≤ 100 * j := by omega
        omega
      rw [recursive_loc_page_next (by rw [loc_counter_fullPage, if_neg hc])]
      rw [ih (by omega) rest (a + 100) (d + 100) (m + 100) (some ['c']) 0
        (f + 100) sl (pg + 1) (by omega) (by omega)]
      rw [show a + 100 + 100 * j = a + 100 * (j + 1) from by ring,
        show d + 100 + 100 * j = d + 100 * (j + 1) from by ring,
        show m + 100 + 100 * j = m + 100 * (j + 1) from by ring,
        show pg + 1 + j = pg + (j + 1) from by omega]

/-- Full pages below the commit ceiling: `j` consecutive full pages pass
through, accumulating `100 * j` on every counter including
`commits_fetched`. -/
theorem recursive_loc_full_pass :
    ∀ (j : Nat), 1 ≤ j →
    ∀ (rest : List LocResponse) (a d m : Nat) (cur : Option Line) (rc f : Nat)
      (sl : List Nat) (pg : Nat),
      f + 100 * j < MAX_COMMITS_PER_REPO →
      recursive_loc (List.replicate j (.ok (some fullPage)) ++ rest) a d m cur rc f sl pg =
        recursive_loc rest (a + 100 * j) (d + 100 * j) (m + 100 * j)
          (some ['c']) 0 (f + 100 * j) sl (pg + j) := by
  intro j
  induction j with
  | zero => omega
  | succ j ih =>
    intro _ rest a d m cur rc f sl pg hlt
    rw [List.replicate_succ, List.cons_append]
    have hc : ¬ MAX_COMMITS_PER_REPO ≤ f + 100 := by
      have : 100 ≤ 100 * (j + 1) := by omega
      omega
    rw [recursive_loc_page_next (by rw [loc_counter_fullPage, if_neg hc])]
    by_cases hj : j = 0
    · subst hj
      simp only [List.replicate_zero, List.nil_append]
    · rw [ih (by omega) rest (a + 100) (d + 100) (m + 100) (some ['c']) 0
        (f + 100) sl (pg + 1) (by omega)]
      rw [show a + 100 + 100 * j = a + 100 * (j + 1) from by ring,
        show d + 100 + 100 * j = d + 100 * (j + 1) from by ring,
        show m + 100 + 100 * j = m + 100 * (j + 1) from by ring,
        show f + 100 + 100 * j = f + 100 * (j + 1) from by ring,
        show pg + 1 + j = pg + (j + 1) from by omega]

/-- Variable-content full pages (100 commits each, next page indicated):
the run stops exactly at the page where the ceiling is reached, and the
authored count grows by at most the commits fetched. -/
theorem recursive_loc_pages_ceiling :
    ∀ (j : Nat), 1 ≤ j →
    ∀ (responses : List LocResponse) (a d m : Nat) (cur : Option Line)
      (rc f : Nat) (sl : List Nat) (pg : Nat),
      (∀ r ∈ responses, ∃ h, r = .ok (some h) ∧ h.edges.length = 100 ∧
        h.pageInfo.hasNextPage = true) →
      j ≤ responses.length →
      f + 100 * (j - 1) < MAX_COMMITS_PER_REPO →
      MAX_COMMITS_PER_REPO ≤ f + 100 * j →
      ∃ a' d' m', recursive_loc responses a d m cur rc f sl pg =
        ⟨.counts a' d' m', sl, pg + j⟩ ∧ m' ≤ m + 100 * j := by
  intro j
  induction j with
  | zero => omega
  | succ j ih =>
    intro _ responses a d m cur rc f sl pg hshape hlen hlt hge
    have hlt' : f + 100 * j < MAX_COMMITS_PER_REPO := by
      have h1 : j + 1 - 1 = j := by omega
      rwa [h1] at hlt
    clear hlt
    match responses, hlen with
    | r :: rest, hlen2 =>
      obtain ⟨h, rfl, hlen100, hnext⟩ := hshape r (by simp)
      have hne : h.edges ≠ [] := by
        intro hngil; rw [hngil] at hlen100; simp at hlen100
      have hmle : (pageFold h.edges (a, d, m)).2.2 ≤ m + 100 := by
        have := pageFold_my_commits_le h.edges a d m
        rw [hlen100] at this
        exact this
      by_cases hj : j = 0
      · subst hj
        have hc : MAX_COMMITS_PER_REPO ≤ f + h.edges.length := by
          rw [hlen100]; simpa using hge
        exact ⟨(pageFold h.edges (a, d, m)).1, (pageFold h.edges (a, d, m)).2.1,
          (pageFold h.edges (a, d, m)).2.2,
          recursive_loc_ceiling_page hne hnext rest a d m cur rc hc sl pg,
          by simpa using hmle⟩
      · have hc : ¬ (h.edges = [] ∨ h.pageInfo.hasNextPage = false) := by
          simp [hne, hnext]
        have hceil : ¬ MAX_COMMITS_PER_REPO ≤ f + h.edges.length := by
          rw [hlen100]
          have : 100 ≤ 100 * j := by omega
          omega
        have hstep : loc_counter_one_repo h a d m f =
            .next (pageFold h.edges (a, d, m)).1 (pageFold h.edges (a, d, m)).2.1
              (pageFold h.edges (a, d, m)).2.2 h.pageInfo.endCursor
              (f + h.edges.length) := by
          simp only [loc_counter_one_repo]
          rw [if_neg hc, if_neg hceil]
        rw [recursive_loc_page_next hstep]
        obtain ⟨a', d', m', heq, hle⟩ := ih (by omega) rest
          (pageFold h.edges (a, d, m)).1 (pageFold h.edges (a, d, m)).2.1
          (pageFold h.edges (a, d, m)).2.2 h.pageInfo.endCursor 0
          (f + h.edges.length) sl (pg + 1)
          (fun r hr => hshape r (by simp [hr]))
          (by simp only [List.length_cons] at hlen2; omega)
          (by rw [hlen100]; omega) (by rw [hlen100]; omega)
        refine ⟨a', d', m', ?_, by omega⟩
        rw [show pg + (j + 1) = pg + 1 + j from by omega]
        exact heq

/-! ## Cache-loop lemmas -/

theorem consLine_ok_iff {out : LineOut} {r : Except LoopErr (List LineOut)}
    {outs : List LineOut} :
    consLine out r = .ok outs ↔ ∃ outs', r = .ok outs' ∧ outs = out :: outs' := by
  cases r with
  | ok outs' =>
    constructor
    · intro h
      injection h with h
      exact ⟨outs', rfl, h.symm⟩
    · rintro ⟨o2, h1, rfl⟩
      injection h1 with h1
      subst h1
      rfl
  | error e =>
    cases e <;>
      exact ⟨fun h => Except.noConfusion h, fun ⟨o2, h1, _⟩ => Except.noConfusion h1⟩

theorem reconcile_loop_cons_ok {resp : Line → List LocResponse} {e : Edge}
    {es : List Edge} {d : Line} {ds : List Line} {outs : List LineOut}
    (h : reconcile_loop resp (e :: es) (d :: ds) = .ok outs) :
    ∃ out outs', reconcile_step resp e d = .write out ∧
      reconcile_loop resp es ds = .ok outs' ∧ outs = out :: outs' := by
  rw [reconcile_loop] at h
  cases hstep : reconcile_step resp e d <;> rw [hstep] at h
  case write out =>
    obtain ⟨outs', h1, h2⟩ := consLine_ok_iff.mp h
    exact ⟨out, outs', rfl, h1, h2⟩
  case fail st => exact Except.noConfusion h
  case pyErr => exact Except.noConfusion h
  case starve => exact Except.noConfusion h

theorem reconcile_loop_ok_lengths {resp : Line → List LocResponse} :
    ∀ {es : List Edge} {ds : List Line} {outs : List LineOut},
      reconcile_loop resp es ds = .ok outs →
      outs.length = ds.length ∧ es.length ≤ ds.length := by
  intro es
  induction es with
  | nil =>
    intro ds outs h
    rw [reconcile_loop] at h
    injection h with h
    subst h
    simp
  | cons e es ih =>
    intro ds outs h
    cases ds with
    | nil => rw [reconcile_loop] at h; exact Except.noConfusion h
    | cons d ds =>
      obtain ⟨out, outs', _, h2, rfl⟩ := reconcile_loop_cons_ok h
      have := ih h2
      simp only [List.length_cons]
      omega

theorem reconcile_loop_ok_get {resp : Line → List LocResponse} :
    ∀ {es : List Edge} {ds : List Line} {outs : List LineOut},
      reconcile_loop resp es ds = .ok outs →
      ∀ i (hi : i < es.length), ∃ (hd : i < ds.length) (ho : i < outs.length),
        reconcile_step resp (es.get ⟨i, hi⟩) (ds.get ⟨i, hd⟩) =
          .write (outs.get ⟨i, ho⟩) := by
  intro es
  induction es with
  | nil => intro ds outs _ i hi; simp at hi
  | cons e es ih =>
    intro ds outs h i hi
    cases ds with
    | nil => rw [reconcile_loop] at h; exact Except.noConfusion h
    | cons d ds =>
      obtain ⟨out, outs', hstep, h2, rfl⟩ := reconcile_loop_cons_ok h
      cases i with
      | zero => exact ⟨by simp, by simp, hstep⟩
      | succ i =>
        obtain ⟨hd, ho, hs⟩ := ih h2 i (by simpa using hi)
        exact ⟨by simpa using hd, by simpa using ho, hs⟩

/-- Exhaustive description of a loop step that writes `out`: hash mismatch
(skip), totals equal (skip), `null` default branch (`TypeError`, zeroed),
reducer saw an empty repo (`TypeError` at `loc[2]`, zeroed), or a refresh
with the reducer's counts. -/
theorem reconcile_step_write_cases {resp : Line → List LocResponse} {e : Edge}
    {d : Line} {out : LineOut}
    (h : reconcile_step resp e d = .write out) :
    (∃ rh cc rest, splitWS d = rh :: cc :: rest ∧
      rh ≠ sha256_hexdigest e.nameWithOwner ∧ out = ⟨d, false, false⟩) ∨
    (∃ rh cc rest n tc, splitWS d = rh :: cc :: rest ∧
      rh = sha256_hexdigest e.nameWithOwner ∧ decValue cc = some n ∧
      e.defaultBranchRef = some tc ∧ n = tc ∧ out = ⟨d, false, false⟩) ∨
    (∃ rh cc rest, splitWS d = rh :: cc :: rest ∧
      rh = sha256_hexdigest e.nameWithOwner ∧ e.defaultBranchRef = none ∧
      out = ⟨rh ++ zeroSuffix, true, false⟩) ∨
    (∃ rh cc rest n tc, splitWS d = rh :: cc :: rest ∧
      rh = sha256_hexdigest e.nameWithOwner ∧ decValue cc = some n ∧
      e.defaultBranchRef = some tc ∧
      (recursive_loc (resp e.nameWithOwner) 0 0 0 none 0 0 [] 0).result =
        .emptyRepo ∧ out = ⟨rh ++ zeroSuffix, true, true⟩) ∨
    (∃ rh cc rest tc la ld lm, splitWS d = rh :: cc :: rest ∧
      rh = sha256_hexdigest e.nameWithOwner ∧ e.defaultBranchRef = some tc ∧
      (recursive_loc (resp e.nameWithOwner) 0 0 0 none 0 0 [] 0).result =
        .counts la ld lm ∧ out = ⟨mkLine rh tc lm la ld, true, true⟩) := by
  unfold reconcile_step at h
  split at h
  next rh cc tail hsp =>
    split at h
    next hh =>
      split at h
      next => exact StepRes.noConfusion h
      next n hdv =>
        split at h
        next hdbr =>
          injection h with h
          subst h
          exact Or.inr (Or.inr (Or.inl ⟨rh, cc, tail, hsp, hh, hdbr, rfl⟩))
        next tc hdbr =>
          split at h
          next hne =>
            split at h
            next hso => exact StepRes.noConfusion h
            next pr hso =>
              split at h
              next hr => exact StepRes.noConfusion h
              next st hr => exact StepRes.noConfusion h
              next hr =>
                injection h with h
                subst h
                exact Or.inr (Or.inr (Or.inr (Or.inl
                  ⟨rh, cc, tail, n, tc, hsp, hh, hdv, hdbr, hr, rfl⟩)))
              next la ld lm hr =>
                injection h with h
                subst h
                exact Or.inr (Or.inr (Or.inr (Or.inr
                  ⟨rh, cc, tail, tc, la, ld, lm, hsp, hh, hdbr, hr, rfl⟩)))
          next hne =>
            injection h with h
            subst h
            exact Or.inr (Or.inl ⟨rh, cc, tail, n, tc, hsp, hh, hdv, hdbr,
              not_not.mp hne, rfl⟩)
    next hh =>
      injection h with h
      subst h
      exact Or.inl ⟨rh, cc, tail, hsp, hh, rfl⟩
  next x hsp => exact StepRes.noConfusion h

/-- A written line that was not overwritten is the stored line unchanged. -/
theorem reconcile_step_unwritten {resp : Line → List LocResponse} {e : Edge}
    {d : Line} {out : LineOut}
    (h : reconcile_step resp e d = .write out) (hw : out.written = false) :
    out = ⟨d, false, false⟩ := by
  rcases reconcile_step_write_cases h with
    ⟨_, _, _, _, _, h1⟩ | ⟨_, _, _, _, _, _, _, _, _, _, h1⟩ |
    ⟨_, _, _, _, _, _, h1⟩ | ⟨_, _, _, _, _, _, _, _, _, _, h1⟩ |
    ⟨_, _, _, _, _, _, _, _, _, _, _, h1⟩
  · exact h1
  · exact h1
  · rw [h1] at hw; cases hw
  · rw [h1] at hw; cases hw
  · rw [h1] at hw; cases hw

/-- A stored key hash differing from the identity hash leaves the line
untouched and does not invoke the reducer. -/
theorem reconcile_step_mismatch {resp : Line → List LocResponse} {e : Edge}
    {d rh cc : Line} {rest : List Line} {out : LineOut}
    (hsp : splitWS d = rh :: cc :: rest)
    (hne : rh ≠ sha256_hexdigest e.nameWithOwner)
    (h : reconcile_step resp e d = .write out) :
    out = ⟨d, false, false⟩ := by
  rcases reconcile_step_write_cases h with
    ⟨_, _, _, _, _, h1⟩ | ⟨rh2, _, _, _, _, hsp2, hsha, _, _, _, _⟩ |
    ⟨rh2, _, _, hsp2, hsha, _, _⟩ | ⟨rh2, _, _, _, _, hsp2, hsha, _, _, _, _⟩ |
    ⟨rh2, _, _, _, _, _, _, hsp2, hsha, _, _, _⟩
  · exact h1
  all_goals rw [hsp] at hsp2
  all_goals injection hsp2 with h1 htl
  all_goals exact absurd (by rw [h1]; exact hsha) hne

/-- A matching key hash with a `null` default branch zeroes the line
without invoking the reducer (the `TypeError` path). -/
theorem reconcile_step_empty_branch {resp : Line → List LocResponse} {e : Edge}
    {d rh cc : Line} {rest : List Line}
    (hsp : splitWS d = rh :: cc :: rest)
    (hmatch : rh = sha256_hexdigest e.nameWithOwner)
    (hnone : e.defaultBranchRef = none) {out : LineOut}
    (h : reconcile_step resp e d = .write out) :
    out = ⟨rh ++ zeroSuffix, true, false⟩ := by
  rcases reconcile_step_write_cases h with
    ⟨rh2, _, _, hsp2, hne2, _⟩ | ⟨_, _, _, _, _, _, _, _, hdbr, _, _⟩ |
    ⟨rh2, _, _, hsp2, _, _, h1⟩ | ⟨_, _, _, _, _, _, _, _, hdbr, _, _⟩ |
    ⟨_, _, _, _, _, _, _, _, _, hdbr, _, _⟩
  · rw [hsp] at hsp2
    injection hsp2 with h1 _
    exact absurd (by rw [← h1]; exact hmatch) hne2
  · rw [hnone] at hdbr; cases hdbr
  · rw [hsp] at hsp2
    injection hsp2 with heq _
    rw [h1, ← heq]
  · rw [hnone] at hdbr; cases hdbr
  · rw [hnone] at hdbr; cases hdbr

/-- The number of commits one modelled response delivers. -/
def pageSize : LocResponse → Nat
  | .ok (some h) => h.edges.length
  | _ => 0

/-- The `authoredCommitCount ≤ totalCommitCount` shape of a ledger line:
its 3rd whitespace token parses to at most its 2nd. -/
def authoredLEtotal (l : Line) : Prop :=
  ∃ rh t m rest tv mv, splitWS l = rh :: t :: m :: rest ∧
    decValue t = some tv ∧ decValue m = some mv ∧ mv ≤ tv

theorem loc_counter_done_m_le {hist : History} {a d m f a' d' m' : Nat}
    (h : loc_counter_one_repo hist a d m f = .done a' d' m') :
    m' ≤ m + hist.edges.length := by
  have hfold := pageFold_my_commits_le hist.edges a d m
  simp only [loc_counter_one_repo] at h
  split at h
  · injection h with h1 h2 h3; omega
  · split at h
    · injection h with h1 h2 h3; omega
    · exact LocStep.noConfusion h

theorem loc_counter_next_m_le {hist : History} {a d m f a' d' m' f' : Nat}
    {cur' : Option Line}
    (h : loc_counter_one_repo hist a d m f = .next a' d' m' cur' f') :
    m' ≤ m + hist.edges.length := by
  have hfold := pageFold_my_commits_le hist.edges a d m
  simp only [loc_counter_one_repo] at h
  split at h
  · exact LocStep.noConfusion h
  · split at h
    · exact LocStep.noConfusion h
    · injection h with h1 h2 h3 h4 h5; omega

/-- The authored count a reduction returns grows by at most the total
number of commits the response stream can deliver. -/
theorem recursive_loc_counts_le :
    ∀ (rs : List LocResponse) (a d m : Nat) (cur : Option Line) (rc f : Nat)
      (sl : List Nat) (pg : Nat) (a' d' m' : Nat),
      (recursive_loc rs a d m cur rc f sl pg).result = .counts a' d' m' →
      m' ≤ m + (rs.map pageSize).sum := by
  intro rs
  induction rs with
  | nil =>
    intro a d m cur rc f sl pg a' d' m' h
    rw [recursive_loc] at h
    exact LocResult.noConfusion h
  | cons r rs ih =>
    intro a d m cur rc f sl pg a' d' m' h
    cases r with
    | ok ob =>
      cases ob with
      | none =>
        rw [recursive_loc] at h
        exact LocResult.noConfusion h
      | some hist =>
        rw [recursive_loc_ok_some] at h
        rcases hstep : loc_counter_one_repo hist a d m f with
          ⟨a1, d1, m1⟩ | ⟨a1, d1, m1, cur1, f1⟩ <;> rw [hstep] at h
        · have h' : LocResult.counts a1 d1 m1 = .counts a' d' m' := h
          injection h' with h1 h2 h3
          have hle := loc_counter_done_m_le hstep
          simp only [List.map_cons, List.sum_cons, pageSize]
          omega
        · have hrec := ih a1 d1 m1 cur1 0 f1 sl (pg + 1) a' d' m' h
          have hle := loc_counter_next_m_le hstep
          simp only [List.map_cons, List.sum_cons, pageSize]
          omega
    | httpError s =>
      rw [recursive_loc] at h
      split at h
      · have hrec := ih a d m cur (rc + 1) 0
          (sl ++ [RETRY_DELAY_BASE * 2 ^ rc]) pg a' d' m' h
        simp only [List.map_cons, List.sum_cons, pageSize]
        omega
      · exact LocResult.noConfusion h

/-- Every line the loop writes (overwrite, not skip), under a remote whose
streams never deliver more commits than the enumerated totals, satisfies
the `authored ≤ total` shape. -/
theorem reconcile_loop_written_inv {resp : Line → List LocResponse} :
    ∀ {es : List Edge} {ds : List Line} {outs : List LineOut},
      reconcile_loop resp es ds = .ok outs →
      (∀ e ∈ es, ∀ tc, e.defaultBranchRef = some tc →
        ((resp e.nameWithOwner).map pageSize).sum ≤ tc) →
      ∀ lo ∈ outs, lo.written = true → authoredLEtotal lo.line := by
  intro es
  induction es with
  | nil =>
    intro ds outs h _ lo hlo hw
    rw [reconcile_loop] at h
    injection h with h
    subst h
    obtain ⟨d, _, rfl⟩ := List.mem_map.mp hlo
    cases hw
  | cons e es ih =>
    intro ds outs h hcons lo hlo hw
    cases ds with
    | nil => rw [reconcile_loop] at h; exact Except.noConfusion h
    | cons d ds =>
      obtain ⟨out, outs', hstep, h2, rfl⟩ := reconcile_loop_cons_ok h
      rcases List.mem_cons.mp hlo with rfl | hlo'
      · rcases reconcile_step_write_cases hstep with
          ⟨_, _, _, _, _, h1⟩ | ⟨_, _, _, _, _, _, _, _, _, _, h1⟩ |
          ⟨rh, cc, rest, hsp, hsha, hdbr, h1⟩ |
          ⟨rh, cc, rest, n, tc, hsp, hsha, hdv, hdbr, hr, h1⟩ |
          ⟨rh, cc, rest, tc, la, ld, lm, hsp, hsha, hdbr, hr, h1⟩
        · rw [h1] at hw; cases hw
        · rw [h1] at hw; cases hw
        · rw [h1]
          refine ⟨rh, ['0'], ['0'], [['0'], ['0']], 0, 0, ?_, by decide,
            by decide, le_refl 0⟩
          rw [hsha]
          exact splitWS_zeroSuffix (sha256_ne_nil _) (sha256_not_space _)
        · rw [h1]
          refine ⟨rh, ['0'], ['0'], [['0'], ['0']], 0, 0, ?_, by decide,
            by decide, le_refl 0⟩
          rw [hsha]
          exact splitWS_zeroSuffix (sha256_ne_nil _) (sha256_not_space _)
        · have hm : lm ≤ tc := by
            have hb := recursive_loc_counts_le (resp e.nameWithOwner) 0 0 0 none
              0 0 [] 0 la ld lm hr
            have hc := hcons e (by simp) tc hdbr
            omega
          rw [h1]
          refine ⟨rh, decRepr tc, decRepr lm, [decRepr la, decRepr ld], tc, lm,
            ?_, decValue_decRepr tc, decValue_decRepr lm, hm⟩
          rw [hsha]
          exact splitWS_mkLine (sha256_ne_nil _) (sha256_not_space _) tc lm la ld
      · exact ih h2 (fun e2 he2 => hcons e2 (by simp [he2])) lo hlo' hw

/-- Lines the loop does not write are stored lines. -/
theorem reconcile_loop_unwritten_mem {resp : Line → List LocResponse} :
    ∀ {es : List Edge} {ds : List Line} {outs : List LineOut},
      reconcile_loop resp es ds = .ok outs →
      ∀ lo ∈ outs, lo.written = false → lo.line ∈ ds := by
  intro es
  induction es with
  | nil =>
    intro ds outs h lo hlo _
    rw [reconcile_loop] at h
    injection h with h
    subst h
    obtain ⟨d, hd, rfl⟩ := List.mem_map.mp hlo
    exact hd
  | cons e es ih =>
    intro ds outs h lo hlo hw
    cases ds with
    | nil => rw [reconcile_loop] at h; exact Except.noConfusion h
    | cons d ds =>
      obtain ⟨out, outs', hstep, h2, rfl⟩ := reconcile_loop_cons_ok h
      rcases List.mem_cons.mp hlo with rfl | hlo'
      · rw [reconcile_step_unwritten hstep hw]
        simp
      · exact List.mem_cons_of_mem d (ih h2 lo hlo' hw)

/-- When the loop aborts on a reducer failure, the recorded snapshot is the
output of a *successful* run over the first `n` repositories followed by
the untouched remaining stored lines. -/
theorem reconcile_loop_fail_prefix {resp : Line → List LocResponse} :
    ∀ {es : List Edge} {ds : List Line} {st : Nat} {done rest : List Line},
      reconcile_loop resp es ds = .error (.reduceFail st done rest) →
      ∃ n outs, n ≤ es.length ∧ n ≤ ds.length ∧
        reconcile_loop resp (es.take n) (ds.take n) = .ok outs ∧
        done = outs.map (·.line) ∧ rest = ds.drop n := by
  intro es
  induction es with
  | nil =>
    intro ds st done rest h
    rw [reconcile_loop] at h
    exact Except.noConfusion h
  | cons e es ih =>
    intro ds st done rest h
    cases ds with
    | nil =>
      rw [reconcile_loop] at h
      injection h with h
      exact LoopErr.noConfusion h
    | cons d ds =>
      rw [reconcile_loop] at h
      cases hstep : reconcile_step resp e d <;> rw [hstep] at h
      case fail st' =>
        injection h with h
        injection h with h1 h2 h3
        refine ⟨0, [], by simp, by simp, ?_, by rw [← h2]; rfl,
          by rw [← h3, List.drop_zero]⟩
        rw [List.take_zero, List.take_zero, reconcile_loop]
        rfl
      case write out =>
        cases hr : reconcile_loop resp es ds <;> rw [hr] at h
        case ok => exact Except.noConfusion h
        case error err =>
          cases err with
          | pyError => injection h with h; exact LoopErr.noConfusion h
          | starved => injection h with h; exact LoopErr.noConfusion h
          | reduceFail st2 done2 rest2 =>
            injection h with h
            injection h with h1 h2 h3
            obtain ⟨n, outs, hn1, hn2, hloop, hdone, hrest⟩ := ih hr
            refine ⟨n + 1, out :: outs, by simpa using hn1, by simpa using hn2,
              ?_, ?_, ?_⟩
            · rw [List.take_succ_cons, List.take_succ_cons, reconcile_loop,
                hstep, hloop]
              rfl
            · rw [← h2, hdone]
              rfl
            · rw [← h3, hrest, List.drop_succ_cons]
      case pyErr => injection h with h; exact LoopErr.noConfusion h
      case starve => injection h with h; exact LoopErr.noConfusion h

theorem drop_append_of_length_le {α : Type} (A B : List α) (n : Nat)
    (h : A.length ≤ n) : (A ++ B).drop n = B.drop (n - A.length) := by
  induction A generalizing n with
  | nil => simp
  | cons a A ih =>
    cases n with
    | zero => simp at h
    | succ n =>
      simp only [List.cons_append, List.drop_succ_cons]
      rw [ih n (by simpa using h)]
      simp

/-- After a rebuild, every data line the loop starts from is a zeroed line
keyed by some enumerated repository's identity hash. -/
theorem cb_lines0_rebuild_mem {edges : List Edge} {cs : Nat} {force : Bool}
    {file0 : Option (List Line)}
    (hreb : rebuildCond edges cs force file0 = true) :
    ∀ l ∈ cb_lines0 edges cs force file0,
      ∃ e ∈ edges, l = sha256_hexdigest e.nameWithOwner ++ zeroSuffix := by
  intro l hl
  unfold cb_lines0 cb_data1 at hl
  rw [if_pos hreb] at hl
  unfold flush_cache at hl
  have hA : (if 0 < cs then (cb_data0 cs file0).take cs else []).length ≤ cs := by
    split
    · simp only [List.length_take]; omega
    · simp
  rw [drop_append_of_length_le _ _ _ hA] at hl
  have hl2 := List.mem_of_mem_drop hl
  obtain ⟨e, he, rfl⟩ := List.mem_map.mp hl2
  exact ⟨e, he, rfl⟩

/-- After a rebuild, if the loop's data lines are at least as many as the
enumerated repositories, they are exactly the zeroed lines, in enumeration
order. -/
theorem cb_lines0_rebuild_eq {edges : List Edge} {cs : Nat} {force : Bool}
    {file0 : Option (List Line)}
    (hreb : rebuildCond edges cs force file0 = true)
    (hlen : edges.length ≤ (cb_lines0 edges cs force file0).length) :
    cb_lines0 edges cs force file0 =
      edges.map (fun e => sha256_hexdigest e.nameWithOwner ++ zeroSuffix) := by
  unfold cb_lines0 cb_data1 at hlen ⊢
  rw [if_pos hreb] at hlen ⊢
  unfold flush_cache at hlen ⊢
  have hA : (if 0 < cs then (cb_data0 cs file0).take cs else []).length ≤ cs := by
    split
    · simp only [List.length_take]; omega
    · simp
  rw [drop_append_of_length_le _ _ _ hA] at hlen ⊢
  by_cases hedges : edges.length = 0
  · rw [List.length_eq_zero.mp hedges]
    simp
  · have hd : cs - (if 0 < cs then (cb_data0 cs file0).take cs else []).length
        = 0 := by
      rw [List.length_drop, List.length_map] at hlen
      omega
    rw [hd, List.drop_zero]

theorem rebuildCond_iff {edges : List Edge} {cs : Nat} {force : Bool}
    {file0 : Option (List Line)} :
    rebuildCond edges cs force file0 = true ↔
      (((cb_data0 cs file0).length : Int) - (cs : Int) ≠ (edges.length : Int) ∨
        force = true) := by
  unfold rebuildCond
  simp [bne_iff_ne]

/-- The rebuild write happens exactly when the rebuild condition holds. -/
theorem cache_builder_rebuiltTo (edges : List Edge) (cs : Nat) (force : Bool)
    (file0 : Option (List Line)) (resp : Line → List LocResponse) :
    (cache_builder edges cs force file0 resp).rebuiltTo =
      if rebuildCond edges cs force file0 then
        some (cb_data1 edges cs force file0) else none := by
  simp only [cache_builder]
  split
  · rfl
  · rfl
  · rfl
  · split
    · rfl
    · rfl

/-- What a successful `cache_builder` run guarantees about its pieces. -/
theorem cache_builder_ok_loop {edges : List Edge} {cs : Nat} {force : Bool}
    {file0 : Option (List Line)} {resp : Line → List LocResponse}
    {o : CacheOutcome}
    (h : (cache_builder edges cs force file0 resp).result = .ok o) :
    reconcile_loop resp edges (cb_lines0 edges cs force file0) = .ok o.lines ∧
    o.comment = cb_comment edges cs force file0 ∧
    o.cached = !(rebuildCond edges cs force file0) ∧
    sumLines (o.lines.map (fun lo => lo.line)) = some (o.loc_add, o.loc_del) ∧
    o.net = (o.loc_add : Int) - (o.loc_del : Int) := by
  simp only [cache_builder] at h
  split at h
  · exact Except.noConfusion h
  · exact Except.noConfusion h
  · exact Except.noConfusion h
  · next outs hloop =>
    split at h
    · exact Except.noConfusion h
    · next la ld hsum =>
      have h' : Except.ok (ε := RunError)
          (⟨la, ld, (la : Int) - (ld : Int), !(rebuildCond edges cs force file0),
            cb_comment edges cs force file0, outs⟩ : CacheOutcome) = .ok o := h
      injection h' with h'
      subst h'
      exact ⟨hloop, rfl, rfl, hsum, rfl⟩

/-! ## Claims C4, C5, C10: the reducer's termination, retry and reset
behavior -/

/-- **C4.**  (1) Over any stream of full pages (100 commits each, next page
indicated), a reduction started fresh returns a partial accumulation with
an authored-commit count at most the 5000 ceiling after exactly 50 pages —
within the claimed `ceil(5000/100)+1` page bound.  (2) A page with zero
commits or with no next page indicated stops the reduction immediately
after that page, whatever responses follow.  (3) The ceiling check also
runs after every page: a page pushing the cumulative fetch count to the
ceiling stops the reduction immediately after that page. -/
theorem c4_truncation_bound :
    (∀ responses : List LocResponse,
      (∀ r ∈ responses, ∃ h, r = .ok (some h) ∧ h.edges.length = 100 ∧
        h.pageInfo.hasNextPage = true) →
      50 ≤ responses.length →
      ∃ a d m, recursive_loc responses 0 0 0 none 0 0 [] 0 =
          ⟨.counts a d m, [], 50⟩ ∧ m ≤ MAX_COMMITS_PER_REPO ∧
          (50 : Nat) ≤ MAX_COMMITS_PER_REPO / 100 + 1) ∧
    (∀ (h : History) (rest : List LocResponse) (a d m : Nat) (cur : Option Line)
      (rc f : Nat) (sl : List Nat) (pg : Nat),
      h.edges = [] ∨ h.pageInfo.hasNextPage = false →
      recursive_loc (.ok (some h) :: rest) a d m cur rc f sl pg =
        ⟨.counts (pageFold h.edges (a, d, m)).1 (pageFold h.edges (a, d, m)).2.1
          (pageFold h.edges (a, d, m)).2.2, sl, pg + 1⟩) ∧
    (∀ (h : History) (rest : List LocResponse) (a d m : Nat) (cur : Option Line)
      (rc f : Nat) (sl : List Nat) (pg : Nat),
      h.edges ≠ [] → h.pageInfo.hasNextPage = true →
      MAX_COMMITS_PER_REPO ≤ f + h.edges.length →
      recursive_loc (.ok (some h) :: rest) a d m cur rc f sl pg =
        ⟨.counts (pageFold h.edges (a, d, m)).1 (pageFold h.edges (a, d, m)).2.1
          (pageFold h.edges (a, d, m)).2.2, sl, pg + 1⟩) := by
  refine ⟨?_, ?_, ?_⟩
  · intro responses hshape hlen
    obtain ⟨a, d, m, heq, hm⟩ := recursive_loc_pages_ceiling 50 (by norm_num)
      responses 0 0 0 none 0 0 [] 0 hshape hlen
      (by norm_num [MAX_COMMITS_PER_REPO])
      (by norm_num [MAX_COMMITS_PER_REPO])
    refine ⟨a, d, m, by simpa using heq, ?_, by norm_num [MAX_COMMITS_PER_REPO]⟩
    simpa [MAX_COMMITS_PER_REPO] using hm
  · intro h rest a d m cur rc f sl pg hstop
    exact recursive_loc_stop_page hstop rest a d m cur rc f sl pg
  · intro h rest a d m cur rc f sl pg hne hnext hceil
    exact recursive_loc_ceiling_page hne hnext rest a d m cur rc hceil sl pg

/-- Concrete instantiation of `c4_truncation_bound`: 51 full pages are
available but only 50 are consumed; a no-next-page page stops at once; a
page reaching 5000 cumulative commits stops at once. -/
theorem c4_truncation_bound_witness :
    (∀ r ∈ List.replicate 51 (LocResponse.ok (some fullPage)),
      ∃ h, r = .ok (some h) ∧ h.edges.length = 100 ∧
        h.pageInfo.hasNextPage = true) ∧
    (∃ a d m, recursive_loc (List.replicate 51 (LocResponse.ok (some fullPage)))
        0 0 0 none 0 0 [] 0 = ⟨.counts a d m, [], 50⟩ ∧
        m ≤ MAX_COMMITS_PER_REPO ∧ (50 : Nat) ≤ MAX_COMMITS_PER_REPO / 100 + 1) ∧
    recursive_loc [.ok (some ⟨[], ⟨none, true⟩⟩)] 1 2 3 none 0 0 [] 0 =
      ⟨.counts 1 2 3, [], 1⟩ ∧
    recursive_loc [.ok (some fullPage)] 0 0 0 none 0 4900 [] 7 =
      ⟨.counts (pageFold fullPage.edges (0, 0, 0)).1
        (pageFold fullPage.edges (0, 0, 0)).2.1
        (pageFold fullPage.edges (0, 0, 0)).2.2, [], 8⟩ := by
  have hshape : ∀ r ∈ List.replicate 51 (LocResponse.ok (some fullPage)),
      ∃ h, r = .ok (some h) ∧ h.edges.length = 100 ∧
        h.pageInfo.hasNextPage = true := by
    intro r hr
    rw [List.eq_of_mem_replicate hr]
    exact ⟨fullPage, rfl, by simp [fullPage], rfl⟩
  refine ⟨hshape, c4_truncation_bound.1 _ hshape (by simp), ?_, ?_⟩
  · have h := c4_truncation_bound.2.1 ⟨[], ⟨none, true⟩⟩ [] 1 2 3 none 0 0 [] 0
      (Or.inl rfl)
    simpa [pageFold] using h
  · exact c4_truncation_bound.2.2 fullPage [] 0 0 0 none 0 4900 [] 7
      (by simp [fullPage]) rfl (by norm_num [MAX_COMMITS_PER_REPO, fullPage])

/-- **C5.**  (1) Three consecutive transient failures (statuses in
{502, 503, 504}) around the history fetch are retried with sleeps of 2, 4
and 8 seconds, and a following success completes the reduction without the
permanent-failure path.  (2) A fourth consecutive transient failure
escalates: the reduction ends in `failed` (the caller then flushes and the
exception propagates), after exactly the three sleeps.  (3) Enumeration
calls go through `simple_request` and are never retried: the first non-200
response fails `loc_query` immediately, consuming exactly one response
beyond the successful prefix. -/
theorem c5_retry_policy :
    (∀ s1 s2 s3 : Nat, s1 ∈ TRANSIENT_ERROR_CODES → s2 ∈ TRANSIENT_ERROR_CODES →
      s3 ∈ TRANSIENT_ERROR_CODES →
      ∀ h : History, h.edges = [] ∨ h.pageInfo.hasNextPage = false →
      ∀ (rest : List LocResponse) (a d m : Nat) (cur : Option Line) (f : Nat)
        (sl : List Nat) (pg : Nat),
      recursive_loc (.httpError s1 :: .httpError s2 :: .httpError s3 ::
          .ok (some h) :: rest) a d m cur 0 f sl pg =
        ⟨.counts (pageFold h.edges (a, d, m)).1 (pageFold h.edges (a, d, m)).2.1
          (pageFold h.edges (a, d, m)).2.2, sl ++ [2, 4, 8], pg + 1⟩) ∧
    (∀ s1 s2 s3 s4 : Nat, s1 ∈ TRANSIENT_ERROR_CODES → s2 ∈ TRANSIENT_ERROR_CODES →
      s3 ∈ TRANSIENT_ERROR_CODES → s4 ∈ TRANSIENT_ERROR_CODES →
      ∀ (rest : List LocResponse) (a d m : Nat) (cur : Option Line) (f : Nat)
        (sl : List Nat) (pg : Nat),
      recursive_loc (.httpError s1 :: .httpError s2 :: .httpError s3 ::
          .httpError s4 :: rest) a d m cur 0 f sl pg =
        ⟨.failed s4, sl ++ [2, 4, 8], pg⟩) ∧
    (∀ ps : List EnumResponse,
      (∀ r ∈ ps, r.status = 200 ∧ r.page.hasNextPage = true) →
      ∀ rf : EnumResponse, rf.status ≠ 200 →
      ∀ (rest : List EnumResponse) (cs : Nat) (force : Bool)
        (file0 : Option (List Line)) (resp : Line → List LocResponse)
        (edges : List Edge),
      loc_query (ps ++ rf :: rest) cs force file0 resp edges =
        (⟨none, .error (.enumFailed rf.status)⟩, ps.length + 1)) := by
  refine ⟨?_, ?_, ?_⟩
  · intro s1 s2 s3 hs1 hs2 hs3 h hstop rest a d m cur f sl pg
    rw [recursive_loc_transient_step hs1 (by decide),
      recursive_loc_transient_step hs2 (by decide),
      recursive_loc_transient_step hs3 (by decide),
      recursive_loc_stop_page hstop]
    congr 1
    simp [RETRY_DELAY_BASE]
  · intro s1 s2 s3 s4 hs1 hs2 hs3 hs4 rest a d m cur f sl pg
    rw [recursive_loc_transient_step hs1 (by decide),
      recursive_loc_transient_step hs2 (by decide),
      recursive_loc_transient_step hs3 (by decide)]
    rw [recursive_loc]
    rw [if_neg (by simp [MAX_RETRIES])]
    congr 1
    simp [RETRY_DELAY_BASE]
  · intro ps
    induction ps with
    | nil =>
      intro _ rf hrf rest cs force file0 resp edges
      rw [List.nil_append, loc_query]
      simp [simple_request, hrf]
    | cons p ps ih =>
      intro hps rf hrf rest cs force file0 resp edges
      obtain ⟨hst, hnx⟩ := hps p (by simp)
      rw [List.cons_append, loc_query]
      simp only [simple_request, hst, if_pos]
      rw [if_pos hnx]
      rw [ih (fun r hr => hps r (by simp [hr])) rf hrf rest cs force file0 resp
        (edges ++ p.page.edges)]
      simp [List.length_cons]

/-- Concrete instantiation of `c5_retry_policy`: statuses 502, 503, 504
then a final page; a fourth transient failure; an enumeration failure after
one successful page. -/
theorem c5_retry_policy_witness :
    recursive_loc [.httpError 502, .httpError 503, .httpError 504,
        .ok (some ⟨[], ⟨none, false⟩⟩)] 0 0 0 none 0 0 [] 0 =
      ⟨.counts 0 0 0, [2, 4, 8], 1⟩ ∧
    recursive_loc [.httpError 502, .httpError 503, .httpError 504,
        .httpError 502] 0 0 0 none 0 0 [] 0 =
      ⟨.failed 502, [2, 4, 8], 0⟩ ∧
    loc_query [⟨200, ⟨[], true⟩⟩, ⟨502, ⟨[], false⟩⟩] 7 false none
        (fun _ => []) [] =
      (⟨none, .error (.enumFailed 502)⟩, 2) := by
  refine ⟨?_, ?_, ?_⟩
  · have h := c5_retry_policy.1 502 503 504 (by decide) (by decide) (by decide)
      ⟨[], ⟨none, false⟩⟩ (Or.inl rfl) [] 0 0 0 none 0 [] 0
    simpa [pageFold] using h
  · have h := c5_retry_policy.2.1 502 503 504 502 (by decide) (by decide)
      (by decide) (by decide) [] 0 0 0 none 0 [] 0
    simpa using h
  · have h := c5_retry_policy.2.2 [⟨200, ⟨[], true⟩⟩]
      (by intro r hr; simp at hr; simp [hr]) ⟨502, ⟨[], false⟩⟩ (by decide)
      [] 7 false none (fun _ => []) []
    simpa using h

/-- **C10.**  (1) On a transient failure with retries left, the retried
call receives the same pagination cursor and the same accumulated
additions, deletions and authored-commit count, but `commits_fetched` — the
counter the 5000 ceiling is checked against — restarts at the omitted
default `0`.  (2) Consequently the ceiling bounds commits fetched since the
last transient failure, not over the whole repository: 49 full pages, one
transient failure, then 50 more full pages fetch 99 pages and 9900 commits
in one reduction, beyond `MAX_COMMITS_PER_REPO`. -/
theorem c10_retry_resets_ceiling :
    (∀ s : Nat, s ∈ TRANSIENT_ERROR_CODES → ∀ rc : Nat, rc < MAX_RETRIES →
      ∀ (rest : List LocResponse) (a d m : Nat) (cur : Option Line) (f : Nat)
        (sl : List Nat) (pg : Nat),
      recursive_loc (.httpError s :: rest) a d m cur rc f sl pg =
        recursive_loc rest a d m cur (rc + 1) 0
          (sl ++ [RETRY_DELAY_BASE * 2 ^ rc]) pg) ∧
    recursive_loc (List.replicate 49 (.ok (some fullPage)) ++ .httpError 502 ::
        List.replicate 50 (.ok (some fullPage))) 0 0 0 none 0 0 [] 0 =
      ⟨.counts 9900 9900 9900, [2], 99⟩ ∧
    MAX_COMMITS_PER_REPO < 9900 := by
  refine ⟨fun s hs rc hrc rest a d m cur f sl pg =>
      recursive_loc_transient_step hs hrc rest a d m cur f sl pg, ?_, by decide⟩
  rw [recursive_loc_full_pass 49 (by norm_num) _ 0 0 0 none 0 0 [] 0
    (by norm_num [MAX_COMMITS_PER_REPO])]
  rw [recursive_loc_transient_step (by decide) (by decide)]
  rw [show List.replicate 50 (LocResponse.ok (some fullPage)) =
    List.replicate 50 (LocResponse.ok (some fullPage)) ++ [] from
    (List.append_nil _).symm]
  rw [recursive_loc_full_ceiling 50 (by norm_num) [] _ _ _ _ _ 0 _ _
    (by norm_num [MAX_COMMITS_PER_REPO]) (by norm_num [MAX_COMMITS_PER_REPO])]
  decide

/-- Concrete instantiation of `c10_retry_resets_ceiling`'s first part at
status 503 with two retries already used. -/
theorem c10_retry_resets_ceiling_witness :
    ((503 : Nat) ∈ TRANSIENT_ERROR_CODES ∧ (2 : Nat) < MAX_RETRIES) ∧
    recursive_loc [.httpError 503] 5 6 7 (some ['x']) 2 123 [9] 4 =
      recursive_loc [] 5 6 7 (some ['x']) 3 0 ([9] ++ [RETRY_DELAY_BASE * 2 ^ 2]) 4 :=
  ⟨⟨by decide, by decide⟩,
    c10_retry_resets_ceiling.1 503 (by decide) 2 (by decide) [] 5 6 7
      (some ['x']) 123 [9] 4⟩

/-! ## Claim C7: the archive merge -/

/-- Modelled from the spec's words, for comparison with the code: "the
final line's 5th whitespace-delimited token (minus its line terminator) is
the authored-commit total for the whole archive."  Tokenization by
`str.split()` has already removed the line terminator, so this value is the
whole 5th token. -/
def spec_archive_commit_total (old_data : List Line) : Option Nat :=
  match old_data.getLast? with
  | none => none
  | some last => ((splitWS last).get? 4).bind decValue

/-- A well-formed concrete archive listing: 7 header lines, one data line
with additions 100 and deletions 40, and a 3-line footer whose final line's
5th whitespace-delimited token is `125`. -/
def archListing : List Line :=
  List.replicate 7 ("# archive header\n".data) ++
    ["aaaa 10 2 100 40\n".data, "# footer one\n".data, "# footer two\n".data,
     "sum w x y 125\n".data]

/-- **C7 — counterexample.**  The claim says the authored-commit total is
"the final line's 5th whitespace-delimited token minus its line
terminator"; since `split()` already removed the terminator, that reading
gives 125 for `archListing`.  The code (`main.py:524`) instead drops the
token's final *character* (`[:-1]`), merging 12 into `commit_data`. -/
theorem c7_counterexample :
    spec_archive_commit_total archListing = some 125 ∧
    (merge_archive ⟨0, 0, 0, 0, 0, 0, 0, 0⟩ (add_archive (some archListing))).map
      (fun t => t.commit_data) = some 12 ∧ (12 : Nat) ≠ 125 := by
  refine ⟨by decide, by decide, by decide⟩

/-- **C7 — amended.**  For every archive whose body parses, the merge adds
exactly the archive's summed additions, summed deletions, their difference,
the parsed authored-commit value and the archived-repository count to the
corresponding live totals and to nothing else (stars, repositories and
followers are untouched), where the authored-commit value is the integer
value of the final line's 5th whitespace-delimited token **with its final
character removed** (tokenization already removed the line terminator).  A
missing archive, or one whose parsing raises inside `add_archive`,
contributes all zeros and is not fatal there. -/
theorem c7_archive_merge :
    (∀ (t : Totals) (old_data : List Line) (r : ArchiveData) (tok : Line) (mc : Nat),
      add_archive_core old_data = some r →
      r.my_commits = some tok → decValue tok = some mc →
      merge_archive t (add_archive (some old_data)) =
        some { t with
          loc_add := t.loc_add + r.added_loc
          loc_del := t.loc_del + r.deleted_loc
          net := t.net + r.net
          contrib_data := t.contrib_data + r.contributed
          commit_data := t.commit_data + mc }) ∧
    (∀ (old_data : List Line) (r : ArchiveData), add_archive_core old_data = some r →
      ∃ last tok, old_data.getLast? = some last ∧
        (splitWS last).get? 4 = some tok ∧ r.my_commits = some tok.dropLast) ∧
    (∀ t : Totals, merge_archive t (add_archive none) = some t) ∧
    (∀ (t : Totals) (old_data : List Line), add_archive_core old_data = none →
      merge_archive t (add_archive (some old_data)) = some t) := by
  refine ⟨?_, ?_, ?_, ?_⟩
  · intro t old_data r tok mc hcore hmc hval
    simp only [add_archive, hcore, merge_archive, hmc, hval]
  · intro old_data r hcore
    unfold add_archive_core at hcore
    simp only [] at hcore
    split at hcore
    · next ad de last h1 h2 =>
      split at hcore
      · next tok h3 =>
        refine ⟨last, tok, h2, h3, ?_⟩
        cases hcore
        rfl
      · cases hcore
    · cases hcore
  · intro t
    simp only [add_archive, merge_archive, archiveFallback]
    cases t
    simp
  · intro t old_data hcore
    simp only [add_archive, hcore, merge_archive, archiveFallback]
    cases t
    simp

/-- Concrete instantiation of `c7_archive_merge`: the `archListing` archive
(additions 100, deletions 40, one archived repository, final-token value
12 after the character drop) merges into zeroed totals exactly as stated,
and a missing archive merges as the identity. -/
theorem c7_archive_merge_witness :
    add_archive_core archListing = some ⟨100, 40, 60, some ['1', '2'], 1⟩ ∧
    merge_archive ⟨1, 2, 3, 4, 5, 6, 7, 8⟩ (add_archive (some archListing)) =
      some ⟨101, 42, 63, 16, 6, 6, 7, 8⟩ ∧
    merge_archive ⟨1, 2, 3, 4, 5, 6, 7, 8⟩ (add_archive none) =
      some ⟨1, 2, 3, 4, 5, 6, 7, 8⟩ := by
  refine ⟨by decide, ?_, c7_archive_merge.2.2.1 _⟩
  have h := c7_archive_merge.1 ⟨1, 2, 3, 4, 5, 6, 7, 8⟩ archListing
    ⟨100, 40, 60, some ['1', '2'], 1⟩ ['1', '2'] 12 (by decide) rfl (by decide)
  simpa using h

/-! ## Claim C6: the rebuild trigger -/

/-- **C6.**  Whenever the stored data-line count differs from the
enumeration size, or `force_cache` is set, the ledger file is rewritten by
`flush_cache` before any reconciliation: the first `comment_size` lines are
preserved verbatim and exactly one data line per enumerated repository is
emitted, in enumeration order, each the identity hash followed by four zero
fields.  Conversely, without the trigger no rebuild write happens. -/
theorem c6_rebuild_trigger (edges : List Edge) (cs : Nat) (force : Bool)
    (file0 : Option (List Line)) (resp : Line → List LocResponse) :
    ((((cb_data0 cs file0).length : Int) - (cs : Int) ≠ (edges.length : Int) ∨
        force = true) →
      (cache_builder edges cs force file0 resp).rebuiltTo =
        some ((cb_data0 cs file0).take cs ++
          edges.map (fun e => sha256_hexdigest e.nameWithOwner ++ zeroSuffix)) ∧
      ∀ e ∈ edges,
        splitWS (sha256_hexdigest e.nameWithOwner ++ zeroSuffix) =
          [sha256_hexdigest e.nameWithOwner, ['0'], ['0'], ['0'], ['0']] ∧
        decValue ['0'] = some 0) ∧
    (¬ (((cb_data0 cs file0).length : Int) - (cs : Int) ≠ (edges.length : Int) ∨
        force = true) →
      (cache_builder edges cs force file0 resp).rebuiltTo = none) := by
  constructor
  · intro hyp
    constructor
    · rw [cache_builder_rebuiltTo, if_pos (rebuildCond_iff.mpr hyp)]
      unfold cb_data1
      rw [if_pos (rebuildCond_iff.mpr hyp)]
      unfold flush_cache
      congr 1
      split
      · rfl
      · next hcs =>
        rw [show cs = 0 from by omega, List.take_zero]
    · intro e _
      exact ⟨splitWS_zeroSuffix (sha256_ne_nil _) (sha256_not_space _), by decide⟩
  · intro hyp
    rw [cache_builder_rebuiltTo,
      if_neg (fun hc => hyp (rebuildCond_iff.mp hc))]

/-- Concrete instantiation of `c6_rebuild_trigger`: a three-line file with
`comment_size = 1` and one enumerated repository triggers a rebuild (the
stored count 2 differs from 1); the matching case does not. -/
theorem c6_rebuild_trigger_witness :
    (cache_builder [⟨"a/b".data, some 0⟩] 1 false
        (some ["# c\n".data, "x 0 0 0 0\n".data, "y 0 0 0 0\n".data])
        (fun _ => [])).rebuiltTo =
      some (["# c\n".data] ++
        ([⟨"a/b".data, some 0⟩] : List Edge).map
          (fun e => sha256_hexdigest e.nameWithOwner ++ zeroSuffix)) ∧
    (cache_builder [⟨"a/b".data, some 0⟩] 1 false
        (some ["# c\n".data, "x 0 0 0 0\n".data]) (fun _ => [])).rebuiltTo =
      none := by
  constructor
  · have h := (c6_rebuild_trigger [⟨"a/b".data, some 0⟩] 1 false
      (some ["# c\n".data, "x 0 0 0 0\n".data, "y 0 0 0 0\n".data])
      (fun _ => [])).1 (by decide)
    rw [h.1]
    rfl
  · exact (c6_rebuild_trigger [⟨"a/b".data, some 0⟩] 1 false
      (some ["# c\n".data, "x 0 0 0 0\n".data]) (fun _ => [])).2 (by decide)

/-! ## Claim C3: partial-failure durability -/

/-- **C3.**  Whenever `cache_builder` escapes with a reducer failure (any
non-retriable status, 403 included, or transient retries exhausted), the
exception carries a flushed ledger file — written by `force_close_file`
before the raise — consisting of the preserved comment block, then the data
lines of a *successful* reconciliation of the first `n` repositories (their
updated values), then the remaining stored lines untouched.  The failure is
still surfaced: the result is the error, not a success. -/
theorem c3_partial_failure_flush (edges : List Edge) (cs : Nat) (force : Bool)
    (file0 : Option (List Line)) (resp : Line → List LocResponse)
    (st : Nat) (flushed : List Line)
    (h : (cache_builder edges cs force file0 resp).result =
      .error (.reducerFailed st flushed)) :
    ∃ n outs, n ≤ edges.length ∧
      reconcile_loop resp (edges.take n)
        ((cb_lines0 edges cs force file0).take n) = .ok outs ∧
      flushed = force_close_file
        (outs.map (fun lo => lo.line) ++ (cb_lines0 edges cs force file0).drop n)
        (cb_comment edges cs force file0) := by
  simp only [cache_builder] at h
  split at h
  · next hloop =>
    have h' : Except.error (α := CacheOutcome) RunError.pythonError =
        .error (.reducerFailed st flushed) := h
    injection h' with h'
    exact RunError.noConfusion h'
  · next hloop =>
    have h' : Except.error (α := CacheOutcome) RunError.outOfResponses =
        .error (.reducerFailed st flushed) := h
    injection h' with h'
    exact RunError.noConfusion h'
  · next st2 done rest hloop =>
    have h' : Except.error (α := CacheOutcome)
        (RunError.reducerFailed st2 (force_close_file (done ++ rest)
          (cb_comment edges cs force file0))) =
        .error (.reducerFailed st flushed) := h
    injection h' with h'
    injection h' with h1 h2
    obtain ⟨n, outs, hn1, _, hloop2, hdone, hrest⟩ :=
      reconcile_loop_fail_prefix hloop
    refine ⟨n, outs, hn1, hloop2, ?_⟩
    rw [← h2, hdone, hrest]
  · next outs hloop =>
    split at h
    · have h' : Except.error (α := CacheOutcome) RunError.pythonError =
          .error (.reducerFailed st flushed) := h
      injection h' with h'
      exact RunError.noConfusion h'
    · exact Except.noConfusion h

/-- Concrete instantiation of `c3_partial_failure_flush`: a 403 on the
first repository flushes the comment block plus the untouched stored line
and propagates the failure. -/
theorem c3_partial_failure_flush_witness :
    (cache_builder [⟨"a/b".data, some 2⟩] 0 false
        (some [sha256_hexdigest "a/b".data ++ " 1 0 0 0\n".data])
        (fun _ => [.httpError 403])).result =
      .error (.reducerFailed 403
        [sha256_hexdigest "a/b".data ++ " 1 0 0 0\n".data]) ∧
    ∃ n outs, n ≤ ([⟨"a/b".data, some 2⟩] : List Edge).length ∧
      reconcile_loop (fun _ => [.httpError 403])
        (([⟨"a/b".data, some 2⟩] : List Edge).take n)
        ((cb_lines0 [⟨"a/b".data, some 2⟩] 0 false
          (some [sha256_hexdigest "a/b".data ++ " 1 0 0 0\n".data])).take n) =
        .ok outs ∧
      [sha256_hexdigest "a/b".data ++ " 1 0 0 0\n".data] = force_close_file
        (outs.map (fun lo => lo.line) ++
          (cb_lines0 [⟨"a/b".data, some 2⟩] 0 false
            (some [sha256_hexdigest "a/b".data ++ " 1 0 0 0\n".data])).drop n)
        (cb_comment [⟨"a/b".data, some 2⟩] 0 false
          (some [sha256_hexdigest "a/b".data ++ " 1 0 0 0\n".data])) := by
  have hres : (cache_builder [⟨"a/b".data, some 2⟩] 0 false
      (some [sha256_hexdigest "a/b".data ++ " 1 0 0 0\n".data])
      (fun _ => [.httpError 403])).result =
      .error (.reducerFailed 403
        [sha256_hexdigest "a/b".data ++ " 1 0 0 0\n".data]) := by decide
  exact ⟨hres, c3_partial_failure_flush _ _ _ _ _ _ _ hres⟩

/-! ## Claim C2: key-hash mismatch handling -/

/-- **C2 — counterexample.**  A ledger whose line count matches the
enumeration but whose stored key hash does not equal the identity hash is
*not* rebuilt: the run succeeds with `fromCache = true`, no `flush_cache`
write happens (`rebuiltTo = none`), and the mismatched line is silently
left untouched, never reconciled. -/
theorem c2_counterexample :
    cache_builder [⟨"a/b".data, some 5⟩] 0 false
        (some ["BAD 3 0 0 0\n".data]) (fun _ => []) =
      ⟨none, .ok ⟨0, 0, 0, true, [],
        [⟨"BAD 3 0 0 0\n".data, false, false⟩]⟩⟩ ∧
    "BAD".data ≠ sha256_hexdigest "a/b".data := by
  exact ⟨by decide, by decide⟩

/-- **C2 — amended.**  A stored key hash differing from the identity hash
at the same enumeration index causes that line to be skipped: in any
successful run the line is carried over unchanged, not written, and the
reducer is never invoked for it; the mismatch triggers neither a rebuild
nor a failure. -/
theorem c2_hash_mismatch_skips (edges : List Edge) (cs : Nat) (force : Bool)
    (file0 : Option (List Line)) (resp : Line → List LocResponse)
    (o : CacheOutcome) (i : Nat) (hi : i < edges.length)
    (h : (cache_builder edges cs force file0 resp).result = .ok o)
    (hd : i < (cb_lines0 edges cs force file0).length)
    (rh cc : Line) (rest : List Line)
    (hsp : splitWS ((cb_lines0 edges cs force file0).get ⟨i, hd⟩) =
      rh :: cc :: rest)
    (hne : rh ≠ sha256_hexdigest (edges.get ⟨i, hi⟩).nameWithOwner) :
    ∃ ho : i < o.lines.length,
      o.lines.get ⟨i, ho⟩ =
        ⟨(cb_lines0 edges cs force file0).get ⟨i, hd⟩, false, false⟩ := by
  obtain ⟨hloop, _, _, _, _⟩ := cache_builder_ok_loop h
  obtain ⟨hd2, ho, hstep⟩ := reconcile_loop_ok_get hloop i hi
  refine ⟨ho, ?_⟩
  exact reconcile_step_mismatch hsp hne hstep

/-- Concrete instantiation of `c2_hash_mismatch_skips` at the
counterexample input. -/
theorem c2_hash_mismatch_skips_witness :
    (cache_builder [⟨"a/b".data, some 5⟩] 0 false
        (some ["BAD 3 0 0 0\n".data]) (fun _ => [])).result =
      .ok ⟨0, 0, 0, true, [], [⟨"BAD 3 0 0 0\n".data, false, false⟩]⟩ ∧
    ∃ ho : 0 < ([⟨("BAD 3 0 0 0\n".data : Line), false, false⟩] :
        List LineOut).length,
      ([⟨("BAD 3 0 0 0\n".data : Line), false, false⟩] :
        List LineOut).get ⟨0, ho⟩ =
        ⟨(cb_lines0 [⟨"a/b".data, some 5⟩] 0 false
          (some ["BAD 3 0 0 0\n".data])).get ⟨0, by decide⟩, false, false⟩ := by
  refine ⟨by decide, ?_⟩
  exact c2_hash_mismatch_skips [⟨"a/b".data, some 5⟩] 0 false
    (some ["BAD 3 0 0 0\n".data]) (fun _ => [])
    ⟨0, 0, 0, true, [], [⟨"BAD 3 0 0 0\n".data, false, false⟩]⟩ 0 (by decide)
    (by decide) (by decide) "BAD".data "3".data
    ["0".data, "0".data, "0".data] (by decide) (by decide)

/-! ## Claim C8: the authored ≤ total invariant -/

/-- **C8.**  Under a remote whose history streams never deliver more
commits than the enumerated branch totals, every ledger line written or
updated by the run — every line the loop overwrote, and, after a rebuild,
every zeroed line — has its authored-commit field at most its
total-commit field. -/
theorem c8_authored_le_total (edges : List Edge) (cs : Nat) (force : Bool)
    (file0 : Option (List Line)) (resp : Line → List LocResponse)
    (o : CacheOutcome)
    (hcons : ∀ e ∈ edges, ∀ tc, e.defaultBranchRef = some tc →
      ((resp e.nameWithOwner).map pageSize).sum ≤ tc)
    (h : (cache_builder edges cs force file0 resp).result = .ok o) :
    ∀ lo ∈ o.lines, (lo.written = true ∨ o.cached = false) →
      authoredLEtotal lo.line := by
  obtain ⟨hloop, _, hcached, _, _⟩ := cache_builder_ok_loop h
  intro lo hlo hcase
  by_cases hw : lo.written = true
  · exact reconcile_loop_written_inv hloop hcons lo hlo hw
  · have hw' : lo.written = false := by simpa using hw
    rcases hcase with hc | hc
    · exact absurd hc hw
    · have hreb : rebuildCond edges cs force file0 = true := by
        rw [hc] at hcached
        simpa using hcached.symm
      have hmem := reconcile_loop_unwritten_mem hloop lo hlo hw'
      obtain ⟨e, _, heq⟩ := cb_lines0_rebuild_mem hreb _ hmem
      rw [heq]
      exact ⟨sha256_hexdigest e.nameWithOwner, ['0'], ['0'], [['0'], ['0']],
        0, 0, splitWS_zeroSuffix (sha256_ne_nil _) (sha256_not_space _),
        by decide, by decide, le_refl 0⟩

/-- Concrete instantiation of `c8_authored_le_total`: one repository whose
stored count 1 differs from the remote total 2, refreshed from a one-commit
page. -/
theorem c8_authored_le_total_witness :
    (∀ e ∈ ([⟨"a/b".data, some 2⟩] : List Edge), ∀ tc,
      e.defaultBranchRef = some tc →
      (((fun _ => [LocResponse.ok (some ⟨[⟨true, 7, 3⟩], ⟨none, false⟩⟩)])
          e.nameWithOwner).map pageSize).sum ≤ tc) ∧
    ∀ o : CacheOutcome,
      (cache_builder [⟨"a/b".data, some 2⟩] 0 false
        (some [sha256_hexdigest "a/b".data ++ " 1 0 0 0\n".data])
        (fun _ => [.ok (some ⟨[⟨true, 7, 3⟩], ⟨none, false⟩⟩)])).result =
        .ok o →
      ∀ lo ∈ o.lines, (lo.written = true ∨ o.cached = false) →
        authoredLEtotal lo.line := by
  have hcons : ∀ e ∈ ([⟨"a/b".data, some 2⟩] : List Edge), ∀ tc,
      e.defaultBranchRef = some tc →
      (((fun _ => [LocResponse.ok (some ⟨[⟨true, 7, 3⟩], ⟨none, false⟩⟩)])
          e.nameWithOwner).map pageSize).sum ≤ tc := by
    intro e he tc htc
    rw [List.mem_singleton] at he
    subst he
    injection htc with htc
    subst htc
    decide
  exact ⟨hcons, fun o h => c8_authored_le_total _ _ _ _ _ o hcons h⟩

/-! ## Claim C9: empty default branch -/

/-- **C9.**  In a successful run, every enumerated repository whose default
branch is `null` — provided its ledger line is key-aligned (always the case
after a rebuild) — gets its line recorded as the identity hash followed by
four zero fields, and the commit-history reducer is never invoked for it
(the `reduced` trace flag stays false). -/
theorem c9_empty_repo (edges : List Edge) (cs : Nat) (force : Bool)
    (file0 : Option (List Line)) (resp : Line → List LocResponse)
    (o : CacheOutcome) (i : Nat) (hi : i < edges.length)
    (h : (cache_builder edges cs force file0 resp).result = .ok o)
    (hnone : (edges.get ⟨i, hi⟩).defaultBranchRef = none)
    (halign : o.cached = false ∨
      ∀ hd : i < (cb_lines0 edges cs force file0).length,
        (splitWS ((cb_lines0 edges cs force file0).get ⟨i, hd⟩)).head? =
          some (sha256_hexdigest (edges.get ⟨i, hi⟩).nameWithOwner)) :
    ∃ ho : i < o.lines.length,
      (o.lines.get ⟨i, ho⟩).line =
        sha256_hexdigest (edges.get ⟨i, hi⟩).nameWithOwner ++ zeroSuffix ∧
      (o.lines.get ⟨i, ho⟩).reduced = false ∧
      splitWS ((o.lines.get ⟨i, ho⟩).line) =
        [sha256_hexdigest (edges.get ⟨i, hi⟩).nameWithOwner,
          ['0'], ['0'], ['0'], ['0']] := by
  obtain ⟨hloop, _, hcached, _, _⟩ := cache_builder_ok_loop h
  obtain ⟨hd, ho, hstep⟩ := reconcile_loop_ok_get hloop i hi
  have hhead : (splitWS ((cb_lines0 edges cs force file0).get ⟨i, hd⟩)).head? =
      some (sha256_hexdigest (edges.get ⟨i, hi⟩).nameWithOwner) := by
    rcases halign with hc | hc
    · have hreb : rebuildCond edges cs force file0 = true := by
        rw [hc] at hcached
        simpa using hcached.symm
      have hlen := (reconcile_loop_ok_lengths hloop).2
      have heq := cb_lines0_rebuild_eq hreb hlen
      have hget : (cb_lines0 edges cs force file0).get ⟨i, hd⟩ =
          sha256_hexdigest (edges.get ⟨i, hi⟩).nameWithOwner ++ zeroSuffix := by
        rw [List.get_of_eq heq]
        simp [List.get_map]
      rw [hget, splitWS_zeroSuffix (sha256_ne_nil _) (sha256_not_space _)]
      rfl
    · exact hc hd
  rcases reconcile_step_write_cases hstep with
    ⟨rh, cc, rest, hsp, hne, _⟩ | ⟨_, _, _, _, _, _, _, _, hdbr, _, _⟩ |
    ⟨rh, cc, rest, hsp, hsha, _, h1⟩ | ⟨_, _, _, _, _, _, _, _, hdbr, _, _⟩ |
    ⟨_, _, _, _, _, _, _, _, _, hdbr, _, _⟩
  · rw [hsp] at hhead
    injection hhead with hhead
    exact absurd (hhead ▸ rfl : rh = sha256_hexdigest
      (edges.get ⟨i, hi⟩).nameWithOwner) hne
  · rw [hnone] at hdbr; cases hdbr
  · refine ⟨ho, ?_, ?_, ?_⟩
    · rw [h1, hsha]
    · rw [h1]
    · rw [h1, hsha]
      exact splitWS_zeroSuffix (sha256_ne_nil _) (sha256_not_space _)
  · rw [hnone] at hdbr; cases hdbr
  · rw [hnone] at hdbr; cases hdbr

/-- Concrete instantiation of `c9_empty_repo`: an enumerated repository
with a `null` default branch and a key-aligned stored line. -/
theorem c9_empty_repo_witness :
    (cache_builder [⟨"a/b".data, none⟩] 0 false
        (some [sha256_hexdigest "a/b".data ++ " 3 0 0 0\n".data])
        (fun _ => [])).result =
      .ok ⟨0, 0, 0, true, [],
        [⟨sha256_hexdigest "a/b".data ++ zeroSuffix, true, false⟩]⟩ ∧
    ∃ ho : 0 < ([⟨sha256_hexdigest "a/b".data ++ zeroSuffix, true, false⟩] :
        List LineOut).length,
      (([⟨sha256_hexdigest "a/b".data ++ zeroSuffix, true, false⟩] :
          List LineOut).get ⟨0, ho⟩).line =
        sha256_hexdigest (([⟨("a/b".data : Line), none⟩] :
          List Edge).get ⟨0, by decide⟩).nameWithOwner ++ zeroSuffix ∧
      (([⟨sha256_hexdigest "a/b".data ++ zeroSuffix, true, false⟩] :
          List LineOut).get ⟨0, ho⟩).reduced = false ∧
      splitWS ((([⟨sha256_hexdigest "a/b".data ++ zeroSuffix, true, false⟩] :
          List LineOut).get ⟨0, ho⟩).line) =
        [sha256_hexdigest (([⟨("a/b".data : Line), none⟩] :
          List Edge).get ⟨0, by decide⟩).nameWithOwner,
          ['0'], ['0'], ['0'], ['0']] := by
  refine ⟨by decide, ?_⟩
  exact c9_empty_repo [⟨"a/b".data, none⟩] 0 false
    (some [sha256_hexdigest "a/b".data ++ " 3 0 0 0\n".data]) (fun _ => [])
    ⟨0, 0, 0, true, [],
      [⟨sha256_hexdigest "a/b".data ++ zeroSuffix, true, false⟩]⟩ 0 (by decide)
    (by decide) (by decide)
    (Or.inr (fun hd =>
      (by decide : (splitWS ((cb_lines0 [⟨"a/b".data, none⟩] 0 false
          (some [sha256_hexdigest "a/b".data ++ " 3 0 0 0\n".data])).get
          ⟨0, by decide⟩)).head? =
        some (sha256_hexdigest (([⟨("a/b".data : Line), none⟩] :
          List Edge).get ⟨0, by decide⟩).nameWithOwner))))

/-! ## Claim C1: the `fromCache` flag and idempotence -/

theorem reconcile_step_eq_mismatch {resp : Line → List LocResponse} {e : Edge}
    {d rh cc : Line} {rest : List Line}
    (hsp : splitWS d = rh :: cc :: rest)
    (hne : rh ≠ sha256_hexdigest e.nameWithOwner) :
    reconcile_step resp e d = .write ⟨d, false, false⟩ := by
  unfold reconcile_step
  split
  next rh2 cc2 tail2 heq =>
    rw [hsp] at heq
    injection heq with h1 h2
    subst h1
    rw [if_neg hne]
  next x heq =>
    rw [hsp] at heq
    exact absurd heq (by intro hh; exact (hh rh cc rest rfl).elim)

theorem reconcile_step_eq_skip_equal {resp : Line → List LocResponse} {e : Edge}
    {d rh cc : Line} {rest : List Line} {n tc : Nat}
    (hsp : splitWS d = rh :: cc :: rest)
    (hrh : rh = sha256_hexdigest e.nameWithOwner)
    (hdv : decValue cc = some n) (hdbr : e.defaultBranchRef = some tc)
    (heqn : n = tc) :
    reconcile_step resp e d = .write ⟨d, false, false⟩ := by
  unfold reconcile_step
  split
  next rh2 cc2 tail2 heq =>
    rw [hsp] at heq
    injection heq with h1 h2
    injection h2 with h2 h3
    subst h1
    subst h2
    rw [if_pos hrh]
    split
    next hdv2 => rw [hdv] at hdv2; cases hdv2
    next n2 hdv2 =>
      rw [hdv] at hdv2
      injection hdv2 with hdv2
      subst hdv2
      split
      next hdbr2 => rw [hdbr] at hdbr2; cases hdbr2
      next tc2 hdbr2 =>
        rw [hdbr] at hdbr2
        injection hdbr2 with hdbr2
        subst hdbr2
        rw [if_neg (by simp [heqn])]
  next x heq =>
    rw [hsp] at heq
    exact absurd heq (by intro hh; exact (hh rh cc rest rfl).elim)

theorem reconcile_step_eq_zero_none {resp : Line → List LocResponse} {e : Edge}
    {d rh cc : Line} {rest : List Line} {n : Nat}
    (hsp : splitWS d = rh :: cc :: rest)
    (hrh : rh = sha256_hexdigest e.nameWithOwner)
    (hdv : decValue cc = some n) (hdbr : e.defaultBranchRef = none) :
    reconcile_step resp e d = .write ⟨rh ++ zeroSuffix, true, false⟩ := by
  unfold reconcile_step
  split
  next rh2 cc2 tail2 heq =>
    rw [hsp] at heq
    injection heq with h1 h2
    injection h2 with h2 h3
    subst h1
    subst h2
    rw [if_pos hrh]
    split
    next hdv2 => rw [hdv] at hdv2; cases hdv2
    next n2 hdv2 =>
      split
      next hdbr2 => rfl
      next tc2 hdbr2 => rw [hdbr] at hdbr2; cases hdbr2
  next x heq =>
    rw [hsp] at heq
    exact absurd heq (by intro hh; exact (hh rh cc rest rfl).elim)

theorem reconcile_step_eq_zero_empty {resp : Line → List LocResponse} {e : Edge}
    {d rh cc : Line} {rest : List Line} {n tc : Nat} {pr : Line × Line}
    (hsp : splitWS d = rh :: cc :: rest)
    (hrh : rh = sha256_hexdigest e.nameWithOwner)
    (hdv : decValue cc = some n) (hdbr : e.defaultBranchRef = some tc)
    (hne : n ≠ tc) (hso : splitOwner e.nameWithOwner = some pr)
    (hr : (recursive_loc (resp e.nameWithOwner) 0 0 0 none 0 0 [] 0).result =
      .emptyRepo) :
    reconcile_step resp e d = .write ⟨rh ++ zeroSuffix, true, true⟩ := by
  unfold reconcile_step
  split
  next rh2 cc2 tail2 heq =>
    rw [hsp] at heq
    injection heq with h1 h2
    injection h2 with h2 h3
    subst h1
    subst h2
    rw [if_pos hrh]
    split
    next hdv2 => rw [hdv] at hdv2; cases hdv2
    next n2 hdv2 =>
      rw [hdv] at hdv2
      injection hdv2 with hdv2
      subst hdv2
      split
      next hdbr2 => rw [hdbr] at hdbr2; cases hdbr2
      next tc2 hdbr2 =>
        rw [hdbr] at hdbr2
        injection hdbr2 with hdbr2
        subst hdbr2
        rw [if_pos hne]
        split
        next hso2 => rw [hso] at hso2; cases hso2
        next pr2 hso2 =>
          split
          next hr2 => rw [hr] at hr2; cases hr2
          next st hr2 => rw [hr] at hr2; cases hr2
          next hr2 => rfl
          next la ld lm hr2 => rw [hr] at hr2; cases hr2
  next x heq =>
    rw [hsp] at heq
    exact absurd heq (by intro hh; exact (hh rh cc rest rfl).elim)

/-- A step that invoked the reducer had a well-formed `owner/name` split. -/
theorem reconcile_step_reduced_splitOwner {resp : Line → List LocResponse}
    {e : Edge} {d : Line} {out : LineOut}
    (h : reconcile_step resp e d = .write out) (hred : out.reduced = true) :
    ∃ pr, splitOwner e.nameWithOwner = some pr := by
  unfold reconcile_step at h
  split at h
  next rh cc tail hsp =>
    split at h
    next hh =>
      split at h
      next => exact StepRes.noConfusion h
      next n hdv =>
        split at h
        next hdbr =>
          injection h with h
          rw [← h] at hred
          cases hred
        next tc hdbr =>
          split at h
          next hne =>
            split at h
            next hso => exact StepRes.noConfusion h
            next pr hso => exact ⟨pr, hso⟩
          next hne =>
            injection h with h
            rw [← h] at hred
            cases hred
    next hh =>
      injection h with h
      rw [← h] at hred
      cases hred
  next x hsp => exact StepRes.noConfusion h

/-- A stored line is *stable* for its edge under the remote `resp`:
re-running the per-index reconciliation step on it writes back exactly the
same line.  Every line a successful run leaves behind is stable. -/
def lineStable (resp : Line → List LocResponse) (e : Edge) (l : Line) : Prop :=
  ∃ rh cc rest, splitWS l = rh :: cc :: rest ∧
    (rh = sha256_hexdigest e.nameWithOwner →
      ∃ n, decValue cc = some n ∧
        ((e.defaultBranchRef = none ∧ l = rh ++ zeroSuffix) ∨
         (∃ tc, e.defaultBranchRef = some tc ∧ n = tc) ∨
         (∃ tc pr, e.defaultBranchRef = some tc ∧
           splitOwner e.nameWithOwner = some pr ∧
           (recursive_loc (resp e.nameWithOwner) 0 0 0 none 0 0 [] 0).result =
             .emptyRepo ∧ l = rh ++ zeroSuffix)))

/-- Establishment: every line a successful loop leaves behind is stable for
its edge. -/
theorem reconcile_loop_ok_stable {resp : Line → List LocResponse} :
    ∀ {es : List Edge} {ds : List Line} {outs : List LineOut},
      reconcile_loop resp es ds = .ok outs →
      ∀ p ∈ List.zip es outs, lineStable resp p.1 p.2.line := by
  intro es
  induction es with
  | nil => intro ds outs _ p hp; simp at hp
  | cons e es ih =>
    intro ds outs h p hp
    cases ds with
    | nil => rw [reconcile_loop] at h; exact Except.noConfusion h
    | cons d ds =>
      obtain ⟨out, outs', hstep, h2, rfl⟩ := reconcile_loop_cons_ok h
      rw [List.zip_cons_cons] at hp
      rcases List.mem_cons.mp hp with rfl | hp'
      · show lineStable resp e out.line
        rcases reconcile_step_write_cases hstep with
          ⟨rh, cc, rest, hsp, hne, h1⟩ |
          ⟨rh, cc, rest, n, tc, hsp, hrh, hdv, hdbr, heqn, h1⟩ |
          ⟨rh, cc, rest, hsp, hrh, hdbr, h1⟩ |
          ⟨rh, cc, rest, n, tc, hsp, hrh, hdv, hdbr, hr, h1⟩ |
          ⟨rh, cc, rest, tc, la, ld, lm, hsp, hrh, hdbr, hr, h1⟩
        · rw [h1]
          exact ⟨rh, cc, rest, hsp, fun hc => absurd hc hne⟩
        · rw [h1]
          exact ⟨rh, cc, rest, hsp,
            fun _ => ⟨n, hdv, Or.inr (Or.inl ⟨tc, hdbr, heqn⟩)⟩⟩
        · rw [h1]
          refine ⟨rh, ['0'], [['0'], ['0'], ['0']], ?_, ?_⟩
          · rw [hrh]
            exact splitWS_zeroSuffix (sha256_ne_nil _) (sha256_not_space _)
          · exact fun _ => ⟨0, by decide, Or.inl ⟨hdbr, rfl⟩⟩
        · obtain ⟨pr, hso⟩ := reconcile_step_reduced_splitOwner hstep
            (by rw [h1])
          rw [h1]
          refine ⟨rh, ['0'], [['0'], ['0'], ['0']], ?_, ?_⟩
          · rw [hrh]
            exact splitWS_zeroSuffix (sha256_ne_nil _) (sha256_not_space _)
          · exact fun _ => ⟨0, by decide,
              Or.inr (Or.inr ⟨tc, pr, hdbr, hso, hr, rfl⟩)⟩
        · rw [h1]
          refine ⟨rh, decRepr tc, [decRepr lm, decRepr la, decRepr ld], ?_, ?_⟩
          · rw [hrh]
            exact splitWS_mkLine (sha256_ne_nil _) (sha256_not_space _) tc lm la ld
          · exact fun _ => ⟨tc, decValue_decRepr tc,
              Or.inr (Or.inl ⟨tc, hdbr, rfl⟩)⟩
      · exact ih h2 p hp'

/-- Preservation: on stable lines the loop succeeds and writes back the
same lines. -/
theorem reconcile_loop_stable_id {resp : Line → List LocResponse} :
    ∀ {es : List Edge} {ds : List Line},
      (∀ p ∈ List.zip es ds, lineStable resp p.1 p.2) →
      es.length ≤ ds.length →
      ∃ outs, reconcile_loop resp es ds = .ok outs ∧
        outs.map (fun lo => lo.line) = ds := by
  intro es
  induction es with
  | nil =>
    intro ds _ _
    refine ⟨ds.map (fun d => ⟨d, false, false⟩), by rw [reconcile_loop], ?_⟩
    rw [List.map_map]
    exact List.map_id ds
  | cons e es ih =>
    intro ds hstable hlen
    cases ds with
    | nil => simp at hlen
    | cons d ds =>
      have hstable' : ∀ p ∈ List.zip es ds, lineStable resp p.1 p.2 := by
        intro p hp
        refine hstable p ?_
        rw [List.zip_cons_cons]
        exact List.mem_cons_of_mem _ hp
      obtain ⟨outs', hloop', hmap⟩ := ih hstable' (by simpa using hlen)
      obtain ⟨rh, cc, rest, hsp, himp⟩ :=
        hstable (e, d) (by rw [List.zip_cons_cons]; simp)
      by_cases hrh : rh = sha256_hexdigest e.nameWithOwner
      · obtain ⟨n, hdv, hcases⟩ := himp hrh
        rcases hcases with ⟨hdbr, hline⟩ | ⟨tc, hdbr, heqn⟩ |
          ⟨tc, pr, hdbr, hso, hr, hline⟩
        · refine ⟨⟨rh ++ zeroSuffix, true, false⟩ :: outs', ?_, ?_⟩
          · rw [reconcile_loop,
              reconcile_step_eq_zero_none hsp hrh hdv hdbr, hloop']
            rfl
          · rw [List.map_cons, hmap, ← hline]
        · refine ⟨⟨d, false, false⟩ :: outs', ?_, ?_⟩
          · rw [reconcile_loop,
              reconcile_step_eq_skip_equal hsp hrh hdv hdbr heqn, hloop']
            rfl
          · rw [List.map_cons, hmap]
        · by_cases heqn : n = tc
          · refine ⟨⟨d, false, false⟩ :: outs', ?_, ?_⟩
            · rw [reconcile_loop,
                reconcile_step_eq_skip_equal hsp hrh hdv hdbr heqn, hloop']
              rfl
            · rw [List.map_cons, hmap]
          · refine ⟨⟨rh ++ zeroSuffix, true, true⟩ :: outs', ?_, ?_⟩
            · rw [reconcile_loop,
                reconcile_step_eq_zero_empty hsp hrh hdv hdbr heqn hso hr, hloop']
              rfl
            · rw [List.map_cons, hmap, ← hline]
      · refine ⟨⟨d, false, false⟩ :: outs', ?_, ?_⟩
        · rw [reconcile_loop, reconcile_step_eq_mismatch hsp hrh, hloop']
          rfl
        · rw [List.map_cons, hmap]

theorem zip_map_right_mem {es : List Edge} {ls : List LineOut}
    {p : Edge × Line}
    (hp : p ∈ List.zip es (ls.map (fun lo => lo.line))) :
    ∃ q : Edge × LineOut, q ∈ List.zip es ls ∧ q.1 = p.1 ∧ q.2.line = p.2 := by
  induction es generalizing ls p with
  | nil => simp at hp
  | cons e es ih =>
    cases ls with
    | nil => simp at hp
    | cons lo ls =>
      rw [List.map_cons, List.zip_cons_cons] at hp
      rcases List.mem_cons.mp hp with rfl | hp'
      · exact ⟨(e, lo), by rw [List.zip_cons_cons]; simp, rfl, rfl⟩
      · obtain ⟨q, hq, h1, h2⟩ := ih hp'
        exact ⟨q, by rw [List.zip_cons_cons]; exact List.mem_cons_of_mem _ hq,
          h1, h2⟩

/-- Composing a successful loop and sum into a `cache_builder` success. -/
theorem cache_builder_result_ok {edges : List Edge} {cs : Nat} {force : Bool}
    {file0 : Option (List Line)} {resp : Line → List LocResponse}
    {outs : List LineOut} {la ld : Nat}
    (hloop : reconcile_loop resp edges (cb_lines0 edges cs force file0) =
      .ok outs)
    (hsum : sumLines (outs.map (fun lo => lo.line)) = some (la, ld)) :
    (cache_builder edges cs force file0 resp).result =
      .ok ⟨la, ld, (la : Int) - (ld : Int),
        !(rebuildCond edges cs force file0),
        cb_comment edges cs force file0, outs⟩ := by
  simp only [cache_builder]
  split
  · next h => rw [hloop] at h; exact Except.noConfusion h
  · next h => rw [hloop] at h; exact Except.noConfusion h
  · next h => rw [hloop] at h; exact Except.noConfusion h
  · next outs2 h =>
    rw [hloop] at h
    injection h with h
    subst h
    split
    · next h2 => rw [hsum] at h2; cases h2
    · next la2 ld2 h2 =>
      rw [hsum] at h2
      injection h2 with h2
      injection h2 with h3 h4
      subst h3
      subst h4
      rfl

/-- **C1 — counterexample.**  A run whose ledger line count matches the
enumeration and with no forced refresh, where the stored `totalCommitCount`
1 differs from the remote total 2: the line is refreshed (its `written` and
`reduced` trace flags are true, and the stored line now carries total 2),
yet the returned `fromCache` flag is still `true` — `cached` is cleared
only by the rebuild branch (`main.py:427`), never by a per-line refresh. -/
theorem c1_counterexample :
    cache_builder [⟨"a/b".data, some 2⟩] 0 false
        (some [sha256_hexdigest "a/b".data ++ " 1 0 0 0\n".data])
        (fun _ => [.ok (some ⟨[⟨true, 7, 3⟩], ⟨none, false⟩⟩)]) =
      ⟨none, .ok ⟨7, 3, 4, true, [],
        [⟨mkLine (sha256_hexdigest "a/b".data) 2 1 7 3, true, true⟩]⟩⟩ ∧
    (1 : Nat) ≠ 2 := by
  exact ⟨by decide, by decide⟩

/-- **C1 — amended.**  `fromCache` is true iff the ledger was not rebuilt
(the stored line count matched the enumeration and no forced refresh was
requested); per-line refreshes do not clear it.  Idempotence holds: a
second run started from the persisted file of a successful run, with the
same remote and no forced refresh, succeeds with identical totals, an
identical persisted file, and `fromCache = true` — provided the original
file was absent or had at least `comment_size` lines. -/
theorem c1_fromCache_and_idempotent (edges : List Edge) (cs : Nat)
    (force : Bool) (file0 : Option (List Line))
    (resp : Line → List LocResponse) (o1 : CacheOutcome)
    (hfile : file0 = none ∨ ∃ f, file0 = some f ∧ cs ≤ f.length)
    (h1 : (cache_builder edges cs force file0 resp).result = .ok o1) :
    (o1.cached = true ↔
      (((cb_data0 cs file0).length : Int) - (cs : Int) = (edges.length : Int) ∧
        force = false)) ∧
    ∃ o2, (cache_builder edges cs false (some (persistedFile o1)) resp).result =
        .ok o2 ∧
      o2.cached = true ∧ persistedFile o2 = persistedFile o1 ∧
      o2.loc_add = o1.loc_add ∧ o2.loc_del = o1.loc_del ∧ o2.net = o1.net := by
  obtain ⟨hloop, hcomment, hcached, hsum, hnet⟩ := cache_builder_ok_loop h1
  have hpart1 : o1.cached = true ↔
      (((cb_data0 cs file0).length : Int) - (cs : Int) = (edges.length : Int) ∧
        force = false) := by
    rw [hcached]
    unfold rebuildCond
    cases force
    · simp [bne]
    · simp
  have hlens := reconcile_loop_ok_lengths hloop
  have hdata1 : (cb_data1 edges cs force file0).length = cs + edges.length := by
    by_cases hreb : rebuildCond edges cs force file0 = true
    · have hd0 : cs ≤ (cb_data0 cs file0).length := by
        rcases hfile with rfl | ⟨f, rfl, hf⟩
        · simp [cb_data0]
        · simpa [cb_data0] using hf
      unfold cb_data1
      rw [if_pos hreb]
      unfold flush_cache
      rw [List.length_append, List.length_map]
      congr 1
      split
      · rw [List.length_take]; omega
      · rw [List.length_nil]; omega
    · have hniff : ¬(((cb_data0 cs file0).length : Int) - (cs : Int) ≠
          (edges.length : Int) ∨ force = true) :=
        fun hc => hreb (rebuildCond_iff.mpr hc)
      push_neg at hniff
      unfold cb_data1
      rw [if_neg hreb]
      have hint := hniff.1
      omega
  have hdslen : (cb_lines0 edges cs force file0).length = edges.length := by
    unfold cb_lines0
    rw [List.length_drop, hdata1]
    omega
  have hcomlen : (cb_comment edges cs force file0).length = cs := by
    unfold cb_comment
    rw [List.length_take, hdata1]
    omega
  have holines : o1.lines.length = edges.length := by
    rw [hlens.1, hdslen]
  have hc1 : o1.comment.length = cs := by rw [hcomment]; exact hcomlen
  have hfile1len : (persistedFile o1).length = cs + edges.length := by
    unfold persistedFile
    rw [List.length_append, hc1, List.length_map, holines]
  have hreb2 : rebuildCond edges cs false (some (persistedFile o1)) = false := by
    have hcd : cb_data0 cs (some (persistedFile o1)) = persistedFile o1 := rfl
    unfold rebuildCond
    rw [hcd, hfile1len]
    simp only [Bool.or_false]
    rw [bne_eq_false_iff_eq]
    push_cast
    ring
  have hdata12 : cb_data1 edges cs false (some (persistedFile o1)) =
      persistedFile o1 := by
    unfold cb_data1
    rw [if_neg (by simp [hreb2])]
    rfl
  have hcom2 : cb_comment edges cs false (some (persistedFile o1)) =
      cb_comment edges cs force file0 := by
    unfold cb_comment
    rw [hdata12]
    show (o1.comment ++ o1.lines.map (fun lo => lo.line)).take cs = _
    rw [List.take_left' hc1, hcomment]
    rfl
  have hds2 : cb_lines0 edges cs false (some (persistedFile o1)) =
      o1.lines.map (fun lo => lo.line) := by
    unfold cb_lines0
    rw [hdata12]
    show (o1.comment ++ o1.lines.map (fun lo => lo.line)).drop cs = _
    rw [List.drop_left' hc1]
  have hstab := reconcile_loop_ok_stable hloop
  have hstab2 : ∀ p ∈ List.zip edges
      (cb_lines0 edges cs false (some (persistedFile o1))),
      lineStable resp p.1 p.2 := by
    intro p hp
    rw [hds2] at hp
    obtain ⟨q, hq, hq1, hq2⟩ := zip_map_right_mem hp
    rw [← hq1, ← hq2]
    exact hstab q hq
  obtain ⟨outs2, hloop2, hmap2⟩ := reconcile_loop_stable_id hstab2
    (by rw [hds2, List.length_map, holines])
  have hsum2 : sumLines (outs2.map (fun lo => lo.line)) =
      some (o1.loc_add, o1.loc_del) := by
    rw [hmap2, hds2]
    exact hsum
  have hres2 := cache_builder_result_ok hloop2 hsum2
  refine ⟨hpart1, ⟨_, hres2, by simp [hreb2], ?_, rfl, rfl, hnet.symm⟩⟩
  show cb_comment edges cs false (some (persistedFile o1)) ++
      outs2.map (fun lo => lo.line) = persistedFile o1
  rw [hmap2, hds2, hcom2, ← hcomment]
  rfl

/-- Concrete instantiation of `c1_fromCache_and_idempotent` at the
counterexample input: the first run refreshed a line with `fromCache =
true`, and the second run reproduces the file and totals. -/
theorem c1_fromCache_and_idempotent_witness :
    (cache_builder [⟨"a/b".data, some 2⟩] 0 false
        (some [sha256_hexdigest "a/b".data ++ " 1 0 0 0\n".data])
        (fun _ => [.ok (some ⟨[⟨true, 7, 3⟩], ⟨none, false⟩⟩)])).result =
      .ok ⟨7, 3, 4, true, [],
        [⟨mkLine (sha256_hexdigest "a/b".data) 2 1 7 3, true, true⟩]⟩ ∧
    ((⟨7, 3, 4, true, [],
        [⟨mkLine (sha256_hexdigest "a/b".data) 2 1 7 3, true, true⟩]⟩ :
        CacheOutcome).cached = true ↔
      (((cb_data0 0 (some [sha256_hexdigest "a/b".data ++
          " 1 0 0 0\n".data])).length : Int) - (0 : Int) =
        (([⟨"a/b".data, some 2⟩] : List Edge).length : Int) ∧ false = false)) ∧
    ∃ o2, (cache_builder [⟨"a/b".data, some 2⟩] 0 false
        (some (persistedFile ⟨7, 3, 4, true, [],
          [⟨mkLine (sha256_hexdigest "a/b".data) 2 1 7 3, true, true⟩]⟩))
        (fun _ => [.ok (some ⟨[⟨true, 7, 3⟩], ⟨none, false⟩⟩)])).result =
        .ok o2 ∧
      o2.cached = true ∧
      persistedFile o2 = persistedFile ⟨7, 3, 4, true, [],
        [⟨mkLine (sha256_hexdigest "a/b".data) 2 1 7 3, true, true⟩]⟩ ∧
      o2.loc_add = 7 ∧ o2.loc_del = 3 ∧ o2.net = 4 := by
  have hres : (cache_builder [⟨"a/b".data, some 2⟩] 0 false
      (some [sha256_hexdigest "a/b".data ++ " 1 0 0 0\n".data])
      (fun _ => [.ok (some ⟨[⟨true, 7, 3⟩], ⟨none, false⟩⟩)])).result =
      .ok ⟨7, 3, 4, true, [],
        [⟨mkLine (sha256_hexdigest "a/b".data) 2 1 7 3, true, true⟩]⟩ := by
    decide
  have h := c1_fromCache_and_idempotent [⟨"a/b".data, some 2⟩] 0 false
    (some [sha256_hexdigest "a/b".data ++ " 1 0 0 0\n".data])
    (fun _ => [.ok (some ⟨[⟨true, 7, 3⟩], ⟨none, false⟩⟩)])
    ⟨7, 3, 4, true, [],
      [⟨mkLine (sha256_hexdigest "a/b".data) 2 1 7 3, true, true⟩]⟩
    (Or.inr ⟨_, rfl, by decide⟩) hres
  exact ⟨hres, h.1, h.2⟩

end Main

